import Mathlib

/-!
# Micro-bash: parser, validator, executor and reaper

A shallow embedding of `src/microbash-students/microbash.c`.

* C strings are lists of characters.
* A `char **` array is a list of cells; a cell that `realloc` handed out and
  that was never written is `cell.uninit`, so that "the cell holds the null
  pointer" is a statement about a write the code performed.
* `strtok_r` follows the C library: skip leading delimiters, return the
  maximal run of non-delimiters, leave the save pointer after the delimiter
  that ended it.
* Loops driven by `strtok_r` carry a fuel argument initialised with the length
  of the string plus one; `strtok_all_fuel` shows that this is always enough.
* The operating system is a record of oracles (`sys_t`) answering each system
  call from the current state of the process that is being followed.
* The state holds the descriptor table of that process: each open descriptor
  with the open file it refers to. A descriptor number can be handed out again
  after it was closed, so what a child receives is read from the table at the
  time of the call of `run_child`, not from the number alone.
-/

namespace Microbash

/-! ## Data model -/

/-- C strings: the characters before the terminating NUL. -/
abbrev cstr := List Char

/-- One cell of a `char **` array. -/
inductive cell where
  | uninit : cell
  | null : cell
  | str (s : cstr) : cell
deriving DecidableEq, Repr

/-- The struct `command_t`: `args` is the allocated array, `n_args` the count. -/
structure command_t where
  n_args : Nat
  args : List cell
  out_pathname : Option cstr
  in_pathname : Option cstr
deriving DecidableEq, Repr

/-- The struct `line_t`: the array `commands`; its length is `n_commands`. -/
structure line_t where
  commands : List command_t
deriving DecidableEq, Repr

/-- The field `n_commands` of `line_t`. -/
def line_t.n_commands (l : line_t) : Nat := l.commands.length

/-- The enum `check_t`. -/
inductive check_t where
  | CHECK_OK : check_t
  | CHECK_FAILED : check_t
deriving DecidableEq, Repr

open check_t

/-- The constant `NO_REDIR`. -/
def NO_REDIR : Int := -1

/-- The constant `CD`. -/
def CD : cstr := ['c', 'd']

/-- The argument strings `args[0] .. args[n_args-1]` of a command. -/
def command_t.argv (c : command_t) : List cell := c.args.take c.n_args

/-! ## Tokenizer -/

/-- The C library function `strtok_r (s, delim, &saveptr)` on the string the
scan starts from: `none` when no token is left, otherwise the token and the
new save pointer. -/
def strtok_r (delim : cstr) (s : cstr) : Option (cstr × cstr) :=
  let s1 := s.dropWhile (fun ch => delim.contains ch)
  if s1 = [] then none
  else
    some (s1.takeWhile (fun ch => !delim.contains ch),
          (s1.dropWhile (fun ch => !delim.contains ch)).drop 1)

/-- The tokens that successive calls of `strtok_r` return, at most `fuel` of them. -/
def strtok_all (delim : cstr) : Nat → cstr → List cstr
  | 0, _ => []
  | fuel + 1, s =>
    match strtok_r delim s with
    | none => []
    | some (tok, saveptr) => tok :: strtok_all delim fuel saveptr

/-- All the tokens of a string. -/
def tokens (delim : cstr) (s : cstr) : List cstr := strtok_all delim (s.length + 1) s

/-! ## Parser -/

/-- The delimiters of `parse_cmd`. -/
def BLANKS : cstr := [' ', '\t']

/-- The delimiter of `parse_line`. -/
def PIPE : cstr := ['|']

/-- The wrapper `my_realloc` on an array of cells: the first cells are kept,
the new ones are not initialised. -/
def my_realloc (a : List cell) (n : Nat) : List cell :=
  (a ++ List.replicate n cell.uninit).take n

/-- The body of the `while (tmp)` loop of `parse_cmd` for the token `tmp`;
`none` is `goto fail`. -/
def parse_cmd_token (getenv : cstr → Option cstr) (result : command_t) (tmp : cstr) :
    Option command_t :=
  let result := { result with args := my_realloc result.args (result.n_args + 2) }
  if tmp.head? = some '<' then
    if result.in_pathname.isSome then none
    else if tmp.tail = [] then none
    else some { result with in_pathname := some tmp.tail }
  else if tmp.head? = some '>' then
    if result.out_pathname.isSome then none
    else if tmp.tail = [] then none
    else some { result with out_pathname := some tmp.tail }
  else
    let tmp := if tmp.head? = some '$' then
        (match getenv tmp.tail with
         | none => []
         | some v => v)
      else tmp
    some { result with
      n_args := result.n_args + 1
      args := (result.args.set result.n_args (cell.str tmp)).set (result.n_args + 1) cell.null }

/-- The `while (tmp)` loop of `parse_cmd`, from the save pointer. -/
def parse_cmd_loop (getenv : cstr → Option cstr) : Nat → cstr → command_t → Option command_t
  | 0, _, result => some result
  | fuel + 1, saveptr, result =>
    match strtok_r BLANKS saveptr with
    | none => some result
    | some (tmp, saveptr1) =>
      match parse_cmd_token getenv result tmp with
      | none => none
      | some result1 => parse_cmd_loop getenv fuel saveptr1 result1

/-- The command after `memset(result, 0, sizeof(*result))`. -/
def command_zero : command_t := ⟨0, [], none, none⟩

/-- The part of `parse_cmd` before `if (result->n_args)`: the loop run on the
whole stage string; `none` is `goto fail`. -/
def parse_cmd_scan (getenv : cstr → Option cstr) (cmdstr : cstr) : Option command_t :=
  parse_cmd_loop getenv (cmdstr.length + 1) cmdstr command_zero

/-- The function `parse_cmd`; `none` is the null pointer. -/
def parse_cmd (getenv : cstr → Option cstr) (cmdstr : cstr) : Option command_t :=
  match parse_cmd_scan getenv cmdstr with
  | none => none
  | some result => if result.n_args ≠ 0 then some result else none

/-- The `while (cmd)` loop of `parse_line`; the second argument is the result
of the last `strtok_r` call. -/
def parse_line_loop (getenv : cstr → Option cstr) :
    Nat → Option (cstr × cstr) → line_t → Option line_t
  | 0, _, result => some result
  | _ + 1, none, result => some result
  | fuel + 1, some (cmd, saveptr), result =>
    match parse_cmd getenv cmd with
    | none => none
    | some c =>
      parse_line_loop getenv fuel (strtok_r PIPE saveptr) ⟨result.commands ++ [c]⟩

/-- The function `parse_line`; `none` is the null pointer. -/
def parse_line (getenv : cstr → Option cstr) (line : cstr) : Option line_t :=
  match strtok_r PIPE line with
  | none => none
  | some first => parse_line_loop getenv (line.length + 1) (some first) ⟨[]⟩

/-! ## Validator -/

/-- The test `l->commands[i]->out_pathname != 0`. -/
def has_out (l : line_t) (i : Nat) : Bool :=
  match l.commands[i]? with
  | some c => c.out_pathname.isSome
  | none => false

/-- The test `l->commands[i]->in_pathname != 0`. -/
def has_in (l : line_t) (i : Nat) : Bool :=
  match l.commands[i]? with
  | some c => c.in_pathname.isSome
  | none => false

/-- The `for` loop of `check_redirections` over the indices still to visit. -/
def check_redirections_loop (l : line_t) : List Nat → check_t
  | [] => CHECK_OK
  | i :: rest =>
    if has_out l i then CHECK_FAILED
    else if has_in l (l.n_commands - 1) then CHECK_FAILED
    else if has_in l i || has_out l i then CHECK_FAILED
    else check_redirections_loop l rest

/-- The function `check_redirections`: the loop runs for `i = 1 .. n_commands - 2`. -/
def check_redirections (l : line_t) : check_t :=
  if l.n_commands = 1 then CHECK_OK
  else check_redirections_loop l (List.range' 1 (l.n_commands - 2))

/-- The test `strcmp(CD, c->args[0]) == 0`. -/
def is_cd (c : command_t) : Bool := c.args[0]? == some (cell.str CD)

/-- The function `check_cd`. -/
def check_cd (l : line_t) : check_t :=
  if (l.commands.drop 1).any is_cd then CHECK_FAILED
  else
    match l.commands[0]? with
    | none => CHECK_OK
    | some c0 =>
      if is_cd c0 then
        if l.n_commands > 1 then CHECK_FAILED
        else if c0.out_pathname.isSome || c0.in_pathname.isSome then CHECK_FAILED
        else if c0.n_args = 1 then CHECK_FAILED
        else if c0.n_args ≥ 3 then CHECK_FAILED
        else CHECK_OK
      else CHECK_OK

/-! ## Reaper -/

/-- The C library macro `WTERMSIG`: `status & 0x7f`. -/
def WTERMSIG (status : Nat) : Nat := status % 128

/-- The C library macro `WEXITSTATUS`: `(status & 0xff00) >> 8`. -/
def WEXITSTATUS (status : Nat) : Nat := (status / 256) % 256

/-- The C library macro `WIFEXITED`: `WTERMSIG(status) == 0`. -/
def WIFEXITED (status : Nat) : Bool := WTERMSIG status == 0

/-- The C library macro `WIFSIGNALED`:
`((signed char) ((status & 0x7f) + 1) >> 1) > 0`. -/
def WIFSIGNALED (status : Nat) : Bool := 0 < WTERMSIG status && WTERMSIG status < 127

/-- The C library macro `W_EXITCODE (ret, sig)`, the status `wait` stores. -/
def W_EXITCODE (ret sig : Nat) : Nat := ret * 256 + sig

/-- What the shell writes on its error stream. -/
inductive diag where
  | msg (text : String) : diag
  | exit_status (n : Nat) : diag
  | term_signal (n : Nat) : diag
deriving DecidableEq, Repr

/-- The `for (;;)` loop of `wait_for_children`: every successful `wait`
overwrites `exit_status`; the loop ends when `wait` returns -1. -/
def wait_loop : List Nat → Nat → Nat
  | [], exit_status => exit_status
  | status :: later, _ => wait_loop later status

/-- The reports `wait_for_children` prints when the successive calls of `wait`
store the given statuses and then fail. -/
def wait_for_children (waits : List Nat) : List diag :=
  let exit_status := wait_loop waits 0
  (if WIFEXITED exit_status && WEXITSTATUS exit_status != 0
    then [diag.exit_status (WEXITSTATUS exit_status)] else []) ++
  (if WIFSIGNALED exit_status && WTERMSIG exit_status != 0
    then [diag.term_signal (WTERMSIG exit_status)] else [])

/-- A termination the shell has to report: a non-zero exit or a signal death. -/
def abnormal (status : Nat) : Bool :=
  (WIFEXITED status && WEXITSTATUS status != 0) || WIFSIGNALED status

/-! ## Executor -/

/-- The flags `open` is called with. -/
inductive open_flags where
  | O_RDONLY : open_flags
  | O_RDWR_O_CREAT : open_flags
deriving DecidableEq, Repr

/-- What an open descriptor refers to: a stream the shell started with, a file
opened by `open`, or one end of the pipe that is entry `k` of the log `pipes`. -/
inductive file_t where
  | tty : file_t
  | file (path : cstr) (flags : open_flags) : file_t
  | pipe_read (k : Nat) : file_t
  | pipe_write (k : Nat) : file_t
deriving DecidableEq, Repr

/-- The state of the process that is followed. `fd_table` is its descriptor
table, the newest entry first. `calls` records every call of `run_child` and
`inherited` records, for the same call, what `c_stdin` and `c_stdout` refer to
in the descriptor table at that moment, which is the table `fork` copies into
the child. `pipes` records every pipe created: iteration, read end, write end. -/
structure os_t where
  fd_table : List (Int × file_t)
  calls : List (command_t × Int × Int)
  pipes : List (Nat × Int × Int)
  chdirs : List cell
  stderr : List diag
  inherited : List (Option file_t × Option file_t)
deriving DecidableEq, Repr

/-- The open descriptors of the process. -/
def os_t.open_fds (s : os_t) : List Int := s.fd_table.map Prod.fst

/-- The open file a descriptor refers to; `none` when it is not open. -/
def os_t.fd_file (s : os_t) (fd : Int) : Option file_t := s.fd_table.lookup fd

/-- The open file a descriptor passed to `run_child` stands for: `none` for
`NO_REDIR` (the standard stream is left alone) and for a descriptor that is
not open. -/
def os_t.target (s : os_t) (fd : Int) : Option file_t :=
  if fd = NO_REDIR then none else s.fd_file fd

/-- The answers of the operating system to the calls of the followed process. -/
structure sys_t where
  sys_open : os_t → cstr → open_flags → Int
  sys_pipe : os_t → Option (Int × Int)
  sys_fcntl : os_t → Int → Int
  sys_fork : os_t → Int
  sys_dup2 : os_t → Int → Int → Int
  sys_execvp : os_t → command_t → Bool
  sys_chdir : os_t → cell → Int
  sys_wait : os_t → List Nat

/-- How a function call ends in the followed process. -/
inductive outcome (α : Type) where
  | returned (v : α) (s : os_t) : outcome α
  | exited (s : os_t) : outcome α
  | aborted (s : os_t) : outcome α
  | replaced (s : os_t) : outcome α
  | undefined : outcome α
deriving DecidableEq, Repr

open outcome

/-- Sequencing: the continuation runs only when the call returns. -/
def outcome.bind {α β : Type} (o : outcome α) (k : α → os_t → outcome β) : outcome β :=
  match o with
  | returned v s => k v s
  | exited s => exited s
  | aborted s => aborted s
  | replaced s => replaced s
  | undefined => undefined

/-- A line on the error stream. -/
def os_t.err (s : os_t) (d : diag) : os_t := { s with stderr := s.stderr ++ [d] }

/-- The function `fatal_errno`: `perror` and `exit(EXIT_FAILURE)`. -/
def fatal_errno {α : Type} (text : String) (s : os_t) : outcome α :=
  exited (s.err (diag.msg text))

/-- The system call `close`: the descriptor leaves the open set; -1 when it was not open. -/
def sys_close (s : os_t) (fd : Int) : os_t × Int :=
  if fd ∈ s.open_fds then
    ({ s with fd_table := s.fd_table.filter (fun e => e.1 ≠ fd) }, 0)
  else (s, -1)

/-- The function `close_if_needed`. -/
def close_if_needed (fd : Int) (s : os_t) : os_t :=
  if fd = NO_REDIR then s
  else
    let r := sys_close s fd
    if r.2 ≠ 0 then r.1.err (diag.msg "close in close_if_needed") else r.1

/-- The function `redirect`; `dup2` fails when the system says so and when
`from_fd` is not open. -/
def redirect (sys : sys_t) (from_fd to_fd : Int) (s : os_t) : outcome Unit :=
  if from_fd ≠ NO_REDIR then
    if sys.sys_dup2 s from_fd to_fd = -1 then fatal_errno "Error redirect: can't dup2\n" s
    else
      match s.fd_file from_fd with
      | none => fatal_errno "Error redirect: can't dup2\n" s
      | some f =>
        let s1 := { s with
          fd_table := (to_fd, f) :: s.fd_table.filter (fun e => e.1 ≠ to_fd) }
        let r := sys_close s1 from_fd
        if r.2 = -1 then fatal_errno "Error redirect: can't close\n" r.1
        else returned () r.1
  else returned () s

/-- The function `run_child`; the call is recorded in `calls` and what its
descriptors refer to at that moment in `inherited`. -/
def run_child (sys : sys_t) (c : command_t) (c_stdin c_stdout : Int) (s : os_t) : outcome Unit :=
  let s := { s with
    calls := s.calls ++ [(c, c_stdin, c_stdout)]
    inherited := s.inherited ++ [(s.target c_stdin, s.target c_stdout)] }
  let child := sys.sys_fork s
  if child = -1 then fatal_errno "Error run_child: can't create child process\n" s
  else if child = 0 then
    (redirect sys c_stdin 0 s).bind fun _ s1 =>
    (redirect sys c_stdout 1 s1).bind fun _ s2 =>
    if sys.sys_execvp s2 c then replaced s2
    else returned () (s2.err (diag.msg "Error run_child: Command not found\n"))
  else returned () s

/-- The function `change_current_directory`. -/
def change_current_directory (sys : sys_t) (newdir : cell) (s : os_t) : os_t :=
  if sys.sys_chdir s newdir = -1 then
    s.err (diag.msg "Error change_current_directory: directory doesn't exist\n")
  else { s with chdirs := s.chdirs ++ [newdir] }

/-- The block `if (c->in_pathname)` of `execute_line`: the value of `curr_stdin`. -/
def open_stdin (sys : sys_t) (c : command_t) (a : Nat) (next_stdin : Int) (s : os_t) :
    outcome Int :=
  match c.in_pathname with
  | none => returned next_stdin s
  | some path =>
    if a ≠ 0 then aborted s
    else
      let fd := sys.sys_open s path open_flags.O_RDONLY
      if fd = -1 then fatal_errno "Error execute_line: can't open stdin\n" s
      else returned fd { s with
        fd_table := (fd, file_t.file path open_flags.O_RDONLY) :: s.fd_table }

/-- The block `if (c->out_pathname) .. else if (a != n_commands - 1) ..` of
`execute_line`: the values of `curr_stdout` and `next_stdin`. -/
def open_stdout (sys : sys_t) (l : line_t) (c : command_t) (a : Nat) (next_stdin : Int)
    (s : os_t) : outcome (Int × Int) :=
  match c.out_pathname with
  | some path =>
    if a + 1 ≠ l.n_commands then aborted s
    else
      let fd := sys.sys_open s path open_flags.O_RDWR_O_CREAT
      if fd = -1 then fatal_errno "Error execute_line: can't open stdout\n" s
      else returned (fd, next_stdin) { s with
        fd_table := (fd, file_t.file path open_flags.O_RDWR_O_CREAT) :: s.fd_table }
  | none =>
    if a + 1 ≠ l.n_commands then
      match sys.sys_pipe s with
      | none => fatal_errno "Error execute_line: can't create pipe\n" s
      | some fds =>
        let s1 := { s with
          fd_table := (fds.2, file_t.pipe_write s.pipes.length) ::
            (fds.1, file_t.pipe_read s.pipes.length) :: s.fd_table
          pipes := s.pipes ++ [(a, fds.1, fds.2)] }
        if sys.sys_fcntl s1 fds.1 = -1 then
          fatal_errno "Error execute_line: set FD_CLOEXEC stdin\n" s1
        else if sys.sys_fcntl s1 fds.2 = -1 then
          fatal_errno "Error execute_line: set FD_CLOEXEC stdout\n" s1
        else returned (fds.2, fds.1) s1
    else returned (NO_REDIR, next_stdin) s

/-- The `for` loop of `execute_line` over the commands `l->commands[a ..]`. -/
def execute_line_loop (sys : sys_t) (l : line_t) :
    List command_t → Nat → Int → os_t → outcome Unit
  | [], _, _, s => returned () s
  | c :: later, a, next_stdin, s =>
    (open_stdin sys c a next_stdin s).bind fun curr_stdin s1 =>
    (open_stdout sys l c a next_stdin s1).bind fun fds s2 =>
    (run_child sys c curr_stdin fds.1 s2).bind fun _ s3 =>
    execute_line_loop sys l later (a + 1) fds.2
      (close_if_needed fds.1 (close_if_needed curr_stdin s3))

/-- The function `execute_line`. -/
def execute_line (sys : sys_t) (l : line_t) (s : os_t) : outcome Unit :=
  match l.commands[0]? with
  | none => undefined
  | some c0 =>
    if is_cd c0 then
      if l.n_commands = 1 ∧ c0.n_args = 2 then
        returned () (change_current_directory sys (c0.args.getD 1 cell.null) s)
      else aborted s
    else
      (execute_line_loop sys l l.commands 0 NO_REDIR s).bind fun _ s1 =>
      returned () { s1 with stderr := s1.stderr ++ wait_for_children (sys.sys_wait s1) }

/-- The descriptors `open` and `pipe` hand out are non-negative, distinct and
not open in the calling process. -/
def sys_t.fresh (sys : sys_t) : Prop :=
  (∀ s path flags, sys.sys_open s path flags = -1 ∨
      (0 ≤ sys.sys_open s path flags ∧ sys.sys_open s path flags ∉ s.open_fds)) ∧
  (∀ s fds, sys.sys_pipe s = some fds →
      0 ≤ fds.1 ∧ 0 ≤ fds.2 ∧ fds.1 ≠ fds.2 ∧ fds.1 ∉ s.open_fds ∧ fds.2 ∉ s.open_fds)

/-- A descriptor above all the open ones (and above the standard streams). -/
def above (fds : List Int) : Int := fds.foldr max 2 + 1

/-- An operating system whose calls all succeed, seen from the shell: `fork`
returns the pid of the child, the children exit with the statuses `waits`. -/
def sys_parent (waits : List Nat) : sys_t where
  sys_open := fun s _ _ => above s.open_fds
  sys_pipe := fun s => some (above s.open_fds, above s.open_fds + 1)
  sys_fcntl := fun _ _ => 0
  sys_fork := fun s => 1000 + s.calls.length
  sys_dup2 := fun _ _ to_fd => to_fd
  sys_execvp := fun _ _ => true
  sys_chdir := fun _ _ => 0
  sys_wait := fun _ => waits

/-- The same system seen from the child of the first `fork` (which returns 0
there), when `execvp` fails in that child; later calls of `fork` succeed. -/
def sys_child_exec_fails : sys_t where
  sys_open := fun s _ _ => above s.open_fds
  sys_pipe := fun s => some (above s.open_fds, above s.open_fds + 1)
  sys_fcntl := fun _ _ => 0
  sys_fork := fun s => if s.calls.length = 1 then 0 else 1000 + s.calls.length
  sys_dup2 := fun _ _ to_fd => to_fd
  sys_execvp := fun _ _ => false
  sys_chdir := fun _ _ => 0
  sys_wait := fun _ => []

/-- The line `ls | sort | wc` as `parse_line` returns it. -/
def line_ls_sort_wc : line_t :=
  ⟨[⟨1, [cell.str ['l', 's'], cell.null], none, none⟩,
    ⟨1, [cell.str ['s', 'o', 'r', 't'], cell.null], none, none⟩,
    ⟨1, [cell.str ['w', 'c'], cell.null], none, none⟩]⟩

/-- The line `sort <in | uniq | wc >out` as `parse_line` returns it. -/
def line_sort_uniq_wc : line_t :=
  ⟨[⟨1, [cell.str ['s', 'o', 'r', 't'], cell.null, cell.uninit], none, some ['i', 'n']⟩,
    ⟨1, [cell.str ['u', 'n', 'i', 'q'], cell.null], none, none⟩,
    ⟨1, [cell.str ['w', 'c'], cell.null, cell.uninit], some ['o', 'u', 't'], none⟩]⟩

/-- The line `nosuchprog | cat` as `parse_line` returns it. -/
def line_nosuchprog_cat : line_t :=
  ⟨[⟨1, [cell.str "nosuchprog".toList, cell.null], none, none⟩,
    ⟨1, [cell.str ['c', 'a', 't'], cell.null], none, none⟩]⟩

/-- The shell at start: the three standard streams are open. -/
def os_init : os_t :=
  ⟨[(0, file_t.tty), (1, file_t.tty), (2, file_t.tty)], [], [], [], [], []⟩

/-- No environment variable is set. -/
def env_empty : cstr → Option cstr := fun _ => none

/-- An environment in which only `X` is set, to the text `>out`. -/
def env_redirect : cstr → Option cstr :=
  fun name => if name = ['X'] then some ['>', 'o', 'u', 't'] else none

/-- The line `cat | sort <in` as `parse_line` returns it. -/
def line_cat_sort_in : line_t :=
  ⟨[⟨1, [cell.str ['c', 'a', 't'], cell.null], none, none⟩,
    ⟨1, [cell.str ['s', 'o', 'r', 't'], cell.null, cell.uninit], none, some ['i', 'n']⟩]⟩

/-- The line `ls >out | cat` as `parse_line` returns it. -/
def line_ls_out_cat : line_t :=
  ⟨[⟨1, [cell.str ['l', 's'], cell.null, cell.uninit], some ['o', 'u', 't'], none⟩,
    ⟨1, [cell.str ['c', 'a', 't'], cell.null], none, none⟩]⟩

/-! ## Auxiliary definitions for the proofs -/

/-- The loop body of `parse_cmd` folded over a list of tokens. -/
def parse_cmd_tokens (getenv : cstr → Option cstr) : List cstr → command_t → Option command_t
  | [], result => some result
  | tmp :: later, result =>
    match parse_cmd_token getenv result tmp with
    | none => none
    | some result1 => parse_cmd_tokens getenv later result1

/-- The function `parse_cmd` applied to each stage string in turn, stopping at
the first failure. -/
def parse_stages (getenv : cstr → Option cstr) : List cstr → Option (List command_t)
  | [] => some []
  | cmd :: later =>
    match parse_cmd getenv cmd with
    | none => none
    | some c =>
      match parse_stages getenv later with
      | none => none
      | some cs => some (c :: cs)

/-- A token that `parse_cmd` classifies as a redirection. -/
def is_redir_token (tmp : cstr) : Bool := tmp.head? == some '<' || tmp.head? == some '>'

/-- The string `parse_cmd` stores for an argument token. -/
def expand (getenv : cstr → Option cstr) (tmp : cstr) : cstr :=
  if tmp.head? = some '$' then
    (match getenv tmp.tail with
     | none => []
     | some v => v)
  else tmp

/-- The argument strings a list of tokens contributes, in order. -/
def arg_values (getenv : cstr → Option cstr) (toks : List cstr) : List cstr :=
  (toks.filter (fun t => !is_redir_token t)).map (expand getenv)

/-- The redirection fields after a list of tokens, from given fields
(`in_pathname`, `out_pathname`); `none` is `goto fail`. -/
def redirs : List cstr → Option cstr × Option cstr → Option (Option cstr × Option cstr)
  | [], io => some io
  | tmp :: later, io =>
    if tmp.head? = some '<' then
      if io.1.isSome then none
      else if tmp.tail = [] then none
      else redirs later (some tmp.tail, io.2)
    else if tmp.head? = some '>' then
      if io.2.isSome then none
      else if tmp.tail = [] then none
      else redirs later (io.1, some tmp.tail)
    else redirs later io

/-- The invariant of the loop of `parse_cmd`: the first `n_args` cells hold
strings and, once there is an argument, cell `n_args` holds the null pointer. -/
def command_t.terminated (c : command_t) : Prop :=
  (∀ i, i < c.n_args → ∃ s, c.args[i]? = some (cell.str s)) ∧
  (c.n_args ≠ 0 → c.args[c.n_args]? = some cell.null)

/-! ## Tokenizer lemmas -/

theorem dropWhile_head_false (p : Char → Bool) :
    ∀ (s : cstr) (c : Char) (s1 : cstr), s.dropWhile p = c :: s1 → p c = false := by
  intro s
  induction s with
  | nil => intro c s1 h; simp at h
  | cons a t ih =>
    intro c s1 h
    rw [List.dropWhile_cons] at h
    cases hp : p a with
    | true => rw [hp] at h; exact ih c s1 (by simpa using h)
    | false =>
      rw [hp] at h
      simp only [Bool.false_eq_true, if_false, List.cons.injEq] at h
      rw [← h.1]; exact hp

theorem strtok_r_length (delim s tok saveptr : cstr)
    (h : strtok_r delim s = some (tok, saveptr)) : saveptr.length < s.length := by
  unfold strtok_r at h
  simp only at h
  split at h
  · exact absurd h (by simp)
  · rename_i hne
    have hle : (s.dropWhile (fun ch => delim.contains ch)).length ≤ s.length :=
      (List.dropWhile_sublist _).length_le
    cases hs1 : s.dropWhile (fun ch => delim.contains ch) with
    | nil => exact absurd hs1 hne
    | cons c s1 =>
      have hc : delim.contains c = false :=
        dropWhile_head_false (fun ch => delim.contains ch) s c s1 hs1
      rw [hs1] at h hle
      simp only [Option.some.injEq, Prod.mk.injEq] at h
      obtain ⟨-, h2⟩ := h
      have hd : (List.dropWhile (fun ch => !delim.contains ch) (c :: s1)) =
          List.dropWhile (fun ch => !delim.contains ch) s1 := by
        rw [List.dropWhile_cons, hc]; rfl
      rw [hd] at h2
      have h3 : (List.dropWhile (fun ch => !delim.contains ch) s1).length ≤ s1.length :=
        (List.dropWhile_sublist _).length_le
      subst h2
      simp only [List.length_drop, List.length_cons] at *
      omega

theorem strtok_all_fuel (delim : cstr) :
    ∀ (n m : Nat) (s : cstr), s.length < n → s.length < m →
      strtok_all delim n s = strtok_all delim m s := by
  intro n
  induction n with
  | zero => intro m s h; omega
  | succ n ih =>
    intro m s hn hm
    cases m with
    | zero => omega
    | succ m =>
      simp only [strtok_all]
      cases h : strtok_r delim s with
      | none => rfl
      | some p =>
        obtain ⟨tok, saveptr⟩ := p
        have hl := strtok_r_length delim s tok saveptr h
        simp only
        rw [ih m saveptr (by omega) (by omega)]

theorem tokens_eq (delim s : cstr) :
    tokens delim s = match strtok_r delim s with
      | none => []
      | some (tok, saveptr) => tok :: tokens delim saveptr := by
  cases h : strtok_r delim s with
  | none => simp [tokens, strtok_all, h]
  | some p =>
    obtain ⟨tok, saveptr⟩ := p
    have hl := strtok_r_length delim s tok saveptr h
    simp only [tokens]
    rw [strtok_all, h]
    simp only
    rw [strtok_all_fuel delim s.length (saveptr.length + 1) saveptr hl (by omega)]

/-! ## Parser lemmas -/

theorem parse_cmd_loop_eq (getenv : cstr → Option cstr) :
    ∀ (fuel : Nat) (s : cstr) (result : command_t),
      parse_cmd_loop getenv fuel s result =
        parse_cmd_tokens getenv (strtok_all BLANKS fuel s) result := by
  intro fuel
  induction fuel with
  | zero => intro s result; rfl
  | succ fuel ih =>
    intro s result
    simp only [parse_cmd_loop, strtok_all]
    cases h : strtok_r BLANKS s with
    | none => rfl
    | some p =>
      obtain ⟨tok, saveptr⟩ := p
      simp only [parse_cmd_tokens]
      cases parse_cmd_token getenv result tok with
      | none => rfl
      | some r1 => exact ih saveptr r1

theorem parse_cmd_scan_eq (getenv : cstr → Option cstr) (s : cstr) :
    parse_cmd_scan getenv s = parse_cmd_tokens getenv (tokens BLANKS s) command_zero := by
  unfold parse_cmd_scan tokens
  exact parse_cmd_loop_eq getenv _ s _

theorem parse_line_loop_eq (getenv : cstr → Option cstr) :
    ∀ (fuel : Nat) (cmd saveptr : cstr) (result : line_t),
      parse_line_loop getenv (fuel + 1) (some (cmd, saveptr)) result =
        (parse_stages getenv (cmd :: strtok_all PIPE fuel saveptr)).map
          (fun cs => ⟨result.commands ++ cs⟩) := by
  intro fuel
  induction fuel with
  | zero =>
    intro cmd saveptr result
    simp only [parse_line_loop, strtok_all, parse_stages]
    cases parse_cmd getenv cmd <;> rfl
  | succ fuel ih =>
    intro cmd saveptr result
    rw [parse_line_loop]
    simp only [strtok_all]
    rw [parse_stages]
    cases hc : parse_cmd getenv cmd with
    | none => rfl
    | some c =>
      simp only
      cases h : strtok_r PIPE saveptr with
      | none => simp [parse_line_loop, parse_stages]
      | some p =>
        obtain ⟨cmd1, saveptr1⟩ := p
        rw [ih cmd1 saveptr1]
        simp only
        cases parse_stages getenv (cmd1 :: strtok_all PIPE fuel saveptr1) with
        | none => rfl
        | some cs => simp

theorem parse_line_eq (getenv : cstr → Option cstr) (line : cstr) :
    parse_line getenv line =
      match tokens PIPE line with
      | [] => none
      | cmd :: later => (parse_stages getenv (cmd :: later)).map (fun cs => ⟨cs⟩) := by
  unfold parse_line
  rw [tokens_eq]
  cases h : strtok_r PIPE line with
  | none => rfl
  | some p =>
    obtain ⟨cmd, saveptr⟩ := p
    have hl := strtok_r_length PIPE line cmd saveptr h
    simp only
    rw [parse_line_loop_eq]
    rw [strtok_all_fuel PIPE line.length (saveptr.length + 1) saveptr hl (by omega)]
    simp [tokens]

theorem my_realloc_length (a : List cell) (m : Nat) : (my_realloc a m).length = m := by
  simp [my_realloc]

theorem my_realloc_get (a : List cell) (m i : Nat) (hi : i < a.length) (him : i < m) :
    (my_realloc a m)[i]? = a[i]? := by
  simp only [my_realloc]
  rw [List.getElem?_take_of_lt him, List.getElem?_append_left hi]

theorem my_realloc_take (a : List cell) (m n : Nat) (hn : n ≤ a.length) (hnm : n ≤ m) :
    (my_realloc a m).take n = a.take n := by
  simp only [my_realloc]
  rw [List.take_take, Nat.min_eq_left hnm, List.take_append_of_le_length hn]

theorem terminated_le_length (c : command_t) (hc : c.terminated) : c.n_args ≤ c.args.length := by
  by_cases h0 : c.n_args = 0
  · omega
  · have h := hc.2 h0
    have := (List.getElem?_eq_some_iff.mp h).1
    omega

theorem terminated_zero : command_zero.terminated := by
  constructor
  · intro i hi; simp [command_zero] at hi
  · intro h; simp [command_zero] at h

/-- A redirection token leaves the arguments alone. -/
theorem terminated_realloc (c : command_t) (hc : c.terminated) (i o : Option cstr) :
    command_t.terminated
      { c with args := my_realloc c.args (c.n_args + 2), in_pathname := i, out_pathname := o } ∧
    command_t.argv
      { c with args := my_realloc c.args (c.n_args + 2), in_pathname := i, out_pathname := o }
        = c.argv := by
  have hle := terminated_le_length c hc
  refine ⟨⟨?_, ?_⟩, ?_⟩
  · intro k hk
    simp only at hk ⊢
    obtain ⟨s, hs⟩ := hc.1 k hk
    have hlt := (List.getElem?_eq_some_iff.mp hs).1
    exact ⟨s, by rw [my_realloc_get _ _ _ hlt (by omega)]; exact hs⟩
  · intro h0
    simp only at h0 ⊢
    have h := hc.2 h0
    have hlt := (List.getElem?_eq_some_iff.mp h).1
    rw [my_realloc_get _ _ _ hlt (by omega)]; exact h
  · simp only [command_t.argv]
    exact my_realloc_take _ _ _ hle (by omega)

/-- An argument token stores its string in cell `n_args` and the null pointer after it. -/
theorem terminated_push (c : command_t) (hc : c.terminated) (v : cstr) :
    command_t.terminated
      { c with
        n_args := c.n_args + 1
        args := ((my_realloc c.args (c.n_args + 2)).set c.n_args (cell.str v)).set
          (c.n_args + 1) cell.null } ∧
    command_t.argv
      { c with
        n_args := c.n_args + 1
        args := ((my_realloc c.args (c.n_args + 2)).set c.n_args (cell.str v)).set
          (c.n_args + 1) cell.null } = c.argv ++ [cell.str v] := by
  have hle := terminated_le_length c hc
  have hlen := my_realloc_length c.args (c.n_args + 2)
  refine ⟨⟨?_, ?_⟩, ?_⟩
  · intro k hk
    simp only at hk ⊢
    rw [List.getElem?_set_ne (by omega)]
    by_cases hkn : k = c.n_args
    · subst hkn
      exact ⟨v, by rw [List.getElem?_set_self (by omega)]⟩
    · rw [List.getElem?_set_ne (by omega)]
      obtain ⟨s, hs⟩ := hc.1 k (by omega)
      have hlt := (List.getElem?_eq_some_iff.mp hs).1
      exact ⟨s, by rw [my_realloc_get _ _ _ hlt (by omega)]; exact hs⟩
  · intro _
    simp only
    rw [List.getElem?_set_self (by simp [hlen])]
  · simp only [command_t.argv]
    apply List.ext_getElem?
    intro k
    by_cases hk : k < c.n_args
    · rw [List.getElem?_take_of_lt (by omega), List.getElem?_set_ne (by omega),
        List.getElem?_set_ne (by omega),
        List.getElem?_append_left (by simp; omega), List.getElem?_take_of_lt hk]
      exact my_realloc_get _ _ _ (by omega) (by omega)
    · by_cases hkn : k = c.n_args
      · subst hkn
        rw [List.getElem?_take_of_lt (by omega), List.getElem?_set_ne (by omega),
          List.getElem?_set_self (by omega),
          List.getElem?_append_right (by simp)]
        simp [Nat.min_eq_left hle]
      · rw [List.getElem?_eq_none (by simp; omega), List.getElem?_eq_none (by simp; omega)]

/-- What one turn of the loop of `parse_cmd` does, token by token: the
redirection fields follow `redirs`, the arguments grow by `arg_values`. -/
theorem parse_cmd_tokens_spec (getenv : cstr → Option cstr) :
    ∀ (toks : List cstr) (c : command_t), c.terminated →
      match redirs toks (c.in_pathname, c.out_pathname) with
      | none => parse_cmd_tokens getenv toks c = none
      | some io => ∃ c1, parse_cmd_tokens getenv toks c = some c1 ∧
          c1.n_args = c.n_args + (arg_values getenv toks).length ∧
          c1.argv = c.argv ++ (arg_values getenv toks).map cell.str ∧
          c1.in_pathname = io.1 ∧ c1.out_pathname = io.2 ∧ c1.terminated := by
  intro toks
  induction toks with
  | nil =>
    intro c hc
    simp only [redirs, parse_cmd_tokens, arg_values]
    exact ⟨c, rfl, by simp, by simp, rfl, rfl, hc⟩
  | cons t later ih =>
    intro c hc
    by_cases hin : t.head? = some '<'
    · have hr : is_redir_token t = true := by simp [is_redir_token, hin]
      simp only [redirs, parse_cmd_tokens, parse_cmd_token, hin, if_true]
      by_cases h1 : c.in_pathname.isSome = true
      · simp [h1]
      · simp only [h1, Bool.false_eq_true, if_false]
        by_cases h2 : t.tail = []
        · simp [h2]
        · simp only [h2, if_false]
          have hstep := terminated_realloc c hc (some t.tail) c.out_pathname
          have := ih _ hstep.1
          simp only [arg_values, List.filter_cons, hr, Bool.not_true, Bool.false_eq_true,
            if_false] at this ⊢
          rw [hstep.2] at this
          exact this
    · by_cases hout : t.head? = some '>'
      · have hr : is_redir_token t = true := by simp [is_redir_token, hout]
        simp only [redirs, parse_cmd_tokens, parse_cmd_token, hin, hout, if_true, if_false]
        by_cases h1 : c.out_pathname.isSome = true
        · simp [h1]
        · simp only [h1, Bool.false_eq_true, if_false]
          by_cases h2 : t.tail = []
          · simp [h2]
          · simp only [h2, if_false]
            have hstep := terminated_realloc c hc c.in_pathname (some t.tail)
            have := ih _ hstep.1
            simp only [arg_values, List.filter_cons, hr, Bool.not_true, Bool.false_eq_true,
              if_false] at this ⊢
            rw [hstep.2] at this
            exact this
      · have hr : is_redir_token t = false := by simp [is_redir_token, hin, hout]
        simp only [redirs, parse_cmd_tokens, parse_cmd_token, hin, hout, if_false]
        have hstep := terminated_push c hc (expand getenv t)
        have := ih _ hstep.1
        simp only [arg_values, List.filter_cons, hr, Bool.not_false, if_true, List.map_cons,
          List.length_cons] at this ⊢
        rw [hstep.2] at this
        simp only [expand] at this ⊢
        cases hio : redirs later (c.in_pathname, c.out_pathname) with
        | none => rw [hio] at this; exact this
        | some io =>
          rw [hio] at this
          obtain ⟨c1, h1, h2, h3, h4, h5, h6⟩ := this
          refine ⟨c1, h1, by rw [h2]; omega, by rw [h3]; simp, h4, h5, h6⟩

theorem arg_values_append (getenv : cstr → Option cstr) (a b : List cstr) :
    arg_values getenv (a ++ b) = arg_values getenv a ++ arg_values getenv b := by
  simp [arg_values]

theorem redirs_skip (t : cstr) (ht : is_redir_token t = false) :
    ∀ (pre post : List cstr) (io : Option cstr × Option cstr),
      redirs (pre ++ t :: post) io = redirs (pre ++ post) io := by
  have h1 : ¬ t.head? = some '<' := by
    intro h; simp [is_redir_token, h] at ht
  have h2 : ¬ t.head? = some '>' := by
    intro h; simp [is_redir_token, h] at ht
  intro pre
  induction pre with
  | nil => intro post io; simp [redirs, h1, h2]
  | cons a pre ih =>
    intro post io
    have e1 : ∀ x, redirs (a :: pre ++ x) io =
        (if a.head? = some '<' then
          if io.1.isSome then none
          else if a.tail = [] then none
          else redirs (pre ++ x) (some a.tail, io.2)
        else if a.head? = some '>' then
          if io.2.isSome then none
          else if a.tail = [] then none
          else redirs (pre ++ x) (io.1, some a.tail)
        else redirs (pre ++ x) io) := fun x => rfl
    rw [e1, e1, ih, ih, ih]

theorem redirs_some (toks : List cstr) :
    ∀ (io io1 : Option cstr × Option cstr), redirs toks io = some io1 →
      toks.countP (fun t => t.head? == some '<') + (if io.1.isSome then 1 else 0) ≤ 1 ∧
      toks.countP (fun t => t.head? == some '>') + (if io.2.isSome then 1 else 0) ≤ 1 ∧
      ['<'] ∉ toks ∧ ['>'] ∉ toks := by
  induction toks with
  | nil => intro io io1 _; simp; constructor <;> split <;> omega
  | cons t later ih =>
    intro io io1 h
    by_cases hin : t.head? = some '<'
    · simp only [redirs, hin, if_true] at h
      by_cases h1 : io.1.isSome = true
      · simp [h1] at h
      · simp only [h1, Bool.false_eq_true, if_false] at h
        by_cases h2 : t.tail = []
        · simp [h2] at h
        · simp only [h2, if_false] at h
          have := ih _ _ h
          simp only [Option.isSome_some, if_true] at this
          obtain ⟨a1, a2, a3, a4⟩ := this
          have hne1 : ¬ (['<'] = t) := by intro e; rw [← e] at h2; simp at h2
          have hne2 : ¬ (['>'] = t) := by intro e; rw [← e] at hin; simp at hin
          have hno : ¬ t.head? = some '>' := by rw [hin]; simp
          refine ⟨?_, ?_, ?_, ?_⟩
          · rw [List.countP_cons]; simp only [hin, beq_self_eq_true, if_true, h1]
            simp only [Bool.false_eq_true, if_false]; omega
          · rw [List.countP_cons]; simp only [beq_iff_eq, hno, if_false]; omega
          · simp only [List.mem_cons, not_or]; exact ⟨hne1, a3⟩
          · simp only [List.mem_cons, not_or]; exact ⟨hne2, a4⟩
    · by_cases hout : t.head? = some '>'
      · simp only [redirs, hin, hout, if_true, if_false] at h
        by_cases h1 : io.2.isSome = true
        · simp [h1] at h
        · simp only [h1, Bool.false_eq_true, if_false] at h
          by_cases h2 : t.tail = []
          · simp [h2] at h
          · simp only [h2, if_false] at h
            have := ih _ _ h
            simp only [Option.isSome_some, if_true] at this
            obtain ⟨a1, a2, a3, a4⟩ := this
            have hne1 : ¬ (['<'] = t) := by intro e; rw [← e] at hin; simp at hin
            have hne2 : ¬ (['>'] = t) := by intro e; rw [← e] at h2; simp at h2
            refine ⟨?_, ?_, ?_, ?_⟩
            · rw [List.countP_cons]; simp only [beq_iff_eq, hin, if_false]; omega
            · rw [List.countP_cons]; simp only [hout, beq_self_eq_true, if_true, h1]
              simp only [Bool.false_eq_true, if_false]; omega
            · simp only [List.mem_cons, not_or]; exact ⟨hne1, a3⟩
            · simp only [List.mem_cons, not_or]; exact ⟨hne2, a4⟩
      · simp only [redirs, hin, hout, if_false] at h
        obtain ⟨a1, a2, a3, a4⟩ := ih _ _ h
        have hne1 : ¬ (['<'] = t) := by intro e; rw [← e] at hin; simp at hin
        have hne2 : ¬ (['>'] = t) := by intro e; rw [← e] at hout; simp at hout
        refine ⟨?_, ?_, ?_, ?_⟩
        · rw [List.countP_cons]; simp only [beq_iff_eq, hin, if_false]; omega
        · rw [List.countP_cons]; simp only [beq_iff_eq, hout, if_false]; omega
        · simp only [List.mem_cons, not_or]; exact ⟨hne1, a3⟩
        · simp only [List.mem_cons, not_or]; exact ⟨hne2, a4⟩

/-- The loop of `parse_cmd` on a stage string, in terms of its tokens. -/
theorem parse_cmd_scan_spec (getenv : cstr → Option cstr) (s : cstr) :
    match redirs (tokens BLANKS s) (none, none) with
    | none => parse_cmd_scan getenv s = none
    | some io => ∃ c1, parse_cmd_scan getenv s = some c1 ∧
        c1.n_args = (arg_values getenv (tokens BLANKS s)).length ∧
        c1.argv = (arg_values getenv (tokens BLANKS s)).map cell.str ∧
        c1.in_pathname = io.1 ∧ c1.out_pathname = io.2 ∧ c1.terminated := by
  have h := parse_cmd_tokens_spec getenv (tokens BLANKS s) command_zero terminated_zero
  rw [parse_cmd_scan_eq]
  simp only [command_zero, command_t.argv, List.take_nil, List.nil_append, Nat.zero_add] at h ⊢
  exact h

/-- A command that `parse_cmd` returns has an argument and a terminated array. -/
theorem parse_cmd_some (getenv : cstr → Option cstr) (s : cstr) (c : command_t)
    (h : parse_cmd getenv s = some c) :
    1 ≤ c.n_args ∧ c.terminated ∧ parse_cmd_scan getenv s = some c := by
  unfold parse_cmd at h
  have hspec := parse_cmd_scan_spec getenv s
  cases hscan : parse_cmd_scan getenv s with
  | none => rw [hscan] at h; simp at h
  | some r =>
    rw [hscan] at h
    simp only at h
    split at h
    · rename_i hn
      simp only [Option.some.injEq] at h
      subst h
      cases hio : redirs (tokens BLANKS s) (none, none) with
      | none => rw [hio] at hspec; simp only at hspec; rw [hscan] at hspec; simp at hspec
      | some io =>
        rw [hio] at hspec
        obtain ⟨c1, h1, -, -, -, -, h6⟩ := hspec
        rw [hscan] at h1
        simp only [Option.some.injEq] at h1
        subst h1
        exact ⟨by omega, h6, rfl⟩
    · simp at h

theorem parse_stages_some (getenv : cstr → Option cstr) :
    ∀ (stages : List cstr) (cs : List command_t), parse_stages getenv stages = some cs →
      cs.length = stages.length ∧
      (∀ stage ∈ stages, parse_cmd getenv stage ≠ none) ∧
      ∀ c ∈ cs, 1 ≤ c.n_args ∧ c.terminated := by
  intro stages
  induction stages with
  | nil =>
    intro cs h
    simp only [parse_stages, Option.some.injEq] at h
    subst h
    simp
  | cons stage later ih =>
    intro cs h
    rw [parse_stages] at h
    cases hc : parse_cmd getenv stage with
    | none => rw [hc] at h; simp at h
    | some c =>
      rw [hc] at h
      simp only at h
      cases hl : parse_stages getenv later with
      | none => rw [hl] at h; simp at h
      | some cs1 =>
        rw [hl] at h
        simp only [Option.some.injEq] at h
        subst h
        obtain ⟨i1, i2, i3⟩ := ih cs1 hl
        have hcs := parse_cmd_some getenv stage c hc
        refine ⟨by simp [i1], ?_, ?_⟩
        · intro st hst
          rcases List.mem_cons.mp hst with e | e
          · rw [e, hc]; simp
          · exact i2 st e
        · intro c2 hc2
          rcases List.mem_cons.mp hc2 with e | e
          · rw [e]; exact ⟨hcs.1, hcs.2.1⟩
          · exact i3 c2 e

/-- The shape of every line `parse_line` returns. -/
theorem parse_line_some (getenv : cstr → Option cstr) (line : cstr) (l : line_t)
    (h : parse_line getenv line = some l) :
    1 ≤ l.n_commands ∧
    parse_stages getenv (tokens PIPE line) = some l.commands ∧
    ∀ c ∈ l.commands, 1 ≤ c.n_args ∧ c.terminated := by
  rw [parse_line_eq] at h
  cases ht : tokens PIPE line with
  | nil => rw [ht] at h; simp at h
  | cons cmd later =>
    rw [ht] at h
    simp only at h
    cases hp : parse_stages getenv (cmd :: later) with
    | none => rw [hp] at h; simp at h
    | some cs =>
      rw [hp] at h
      simp only [Option.map_some', Option.some.injEq] at h
      subst h
      obtain ⟨i1, -, i3⟩ := parse_stages_some getenv _ _ hp
      refine ⟨?_, rfl, i3⟩
      simp only [line_t.n_commands, i1, List.length_cons]
      omega

/-- The effect of a variable token on the result of `parse_cmd`, shared by the
theorems on unset and on set variables: the token adds its expansion `v` as
one argument at its position and touches nothing else. -/
theorem parse_cmd_var_token (getenv : cstr → Option cstr) (s s1 : cstr)
    (pre post : List cstr) (name v : cstr)
    (hs : tokens BLANKS s = pre ++ ('$' :: name) :: post)
    (hs1 : tokens BLANKS s1 = pre ++ post)
    (hv : expand getenv ('$' :: name) = v) :
    (parse_cmd_scan getenv s1 = none → parse_cmd getenv s = none) ∧
    (∀ c1, parse_cmd_scan getenv s1 = some c1 →
      ∃ c, parse_cmd getenv s = some c ∧ c.n_args = c1.n_args + 1 ∧
        c.argv = c1.argv.take (pre.filter (fun t => !is_redir_token t)).length ++
          cell.str v :: c1.argv.drop (pre.filter (fun t => !is_redir_token t)).length ∧
        c.in_pathname = c1.in_pathname ∧ c.out_pathname = c1.out_pathname) := by
  have ht : is_redir_token ('$' :: name) = false := by simp [is_redir_token]
  have h := parse_cmd_scan_spec getenv s
  have h1 := parse_cmd_scan_spec getenv s1
  rw [hs, redirs_skip _ ht] at h
  rw [hs1] at h1
  have hav : arg_values getenv (pre ++ ('$' :: name) :: post) =
      arg_values getenv pre ++ v :: arg_values getenv post := by
    rw [arg_values_append]
    simp only [arg_values, List.filter_cons, ht, Bool.not_false, if_true, List.map_cons, hv]
  have hk : (pre.filter (fun t => !is_redir_token t)).length = (arg_values getenv pre).length := by
    simp [arg_values]
  cases hio : redirs (pre ++ post) (none, none) with
  | none =>
    rw [hio] at h h1
    simp only at h h1
    refine ⟨fun _ => by simp [parse_cmd, h], fun c1 hc1 => ?_⟩
    rw [h1] at hc1; simp at hc1
  | some io =>
    rw [hio] at h h1
    obtain ⟨c, a1, a2, a3, a4, a5, -⟩ := h
    obtain ⟨d, b1, b2, b3, b4, b5, -⟩ := h1
    rw [hav] at a2 a3
    refine ⟨fun hn => by rw [b1] at hn; simp at hn, fun c1 hc1 => ?_⟩
    rw [b1] at hc1
    simp only [Option.some.injEq] at hc1
    subst hc1
    have hne : c.n_args ≠ 0 := by rw [a2]; simp
    refine ⟨c, by simp [parse_cmd, a1, hne], ?_, ?_, by rw [a4, b4], by rw [a5, b5]⟩
    · rw [a2, b2, arg_values_append]; simp; omega
    · rw [a3, b3, hk, arg_values_append, List.map_append, List.map_append]
      rw [List.take_left' (by simp), List.drop_left' (by simp)]
      simp

/-! ## The claims -/

/-- C1 (code defect): a two-stage line whose first stage has an output
redirection, a two-stage line whose second stage has an input redirection and a
three-stage line whose first stage has an output redirection are all accepted:
`check_redirections` returns `CHECK_OK` on them, where the claim requires
`CHECK_FAILED`. -/
theorem check_redirections_accepts_misplaced :
    (parse_line env_empty "ls >out | cat".toList).map
        (fun l => (l.n_commands, has_out l 0, check_redirections l)) =
      some (2, true, CHECK_OK) ∧
    (parse_line env_empty "cat | sort <in".toList).map
        (fun l => (l.n_commands, has_in l 1, check_redirections l)) =
      some (2, true, CHECK_OK) ∧
    (parse_line env_empty "ls >out | cat | wc".toList).map
        (fun l => (l.n_commands, has_out l 0, check_redirections l)) =
      some (3, true, CHECK_OK) := by
  decide

/-- C2: on every line that `parse_line` returns, `check_cd` answers `CHECK_OK`
exactly when no stage has `cd` as its first argument, or the line is a single
stage whose first argument is `cd`, with exactly two arguments and neither an
input nor an output redirection. -/
theorem check_cd_ok_iff (getenv : cstr → Option cstr) (line : cstr) (l : line_t)
    (h : parse_line getenv line = some l) :
    check_cd l = CHECK_OK ↔
      ((∀ c ∈ l.commands, is_cd c = false) ∨
       (∃ c, l.commands = [c] ∧ is_cd c = true ∧ c.n_args = 2 ∧
          c.in_pathname = none ∧ c.out_pathname = none)) := by
  obtain ⟨hn, -, hargs⟩ := parse_line_some getenv line l h
  obtain ⟨cs⟩ := l
  cases cs with
  | nil => simp [line_t.n_commands] at hn
  | cons c0 later =>
    have h0 : 1 ≤ c0.n_args := (hargs c0 (by simp)).1
    simp only [check_cd, line_t.n_commands, List.drop_succ_cons, List.drop_zero,
      List.getElem?_cons_zero, List.length_cons, List.mem_cons, List.cons.injEq]
    by_cases hl : later.any is_cd = true
    · simp only [hl, if_true]
      constructor
      · intro hh; exact absurd hh (by decide)
      · rintro (hall | ⟨c, ⟨-, e⟩, -⟩)
        · obtain ⟨x, hx, hxcd⟩ := List.any_eq_true.mp hl
          have := hall x (Or.inr hx)
          rw [this] at hxcd; exact absurd hxcd (by decide)
        · rw [e] at hl; simp at hl
    · simp only [hl, Bool.false_eq_true, if_false]
      have hlater : ∀ x ∈ later, is_cd x = false := by
        intro x hx
        cases hcd : is_cd x with
        | false => rfl
        | true => exact absurd (List.any_eq_true.mpr ⟨x, hx, hcd⟩) hl
      by_cases hc0 : is_cd c0 = true
      · simp only [hc0, if_true]
        constructor
        · intro hh
          right
          split at hh
          · exact absurd hh (by decide)
          · rename_i hlen
            split at hh
            · exact absurd hh (by decide)
            · rename_i hred
              split at hh
              · exact absurd hh (by decide)
              · split at hh
                · exact absurd hh (by decide)
                · have hnil : later = [] := by
                    cases later with
                    | nil => rfl
                    | cons a b => simp at hlen
                  simp only [Bool.or_eq_true, not_or, Bool.not_eq_true] at hred
                  have hi : c0.in_pathname = none := by
                    cases hx : c0.in_pathname with
                    | none => rfl
                    | some p => rw [hx] at hred; simp at hred
                  have ho : c0.out_pathname = none := by
                    cases hx : c0.out_pathname with
                    | none => rfl
                    | some p => rw [hx] at hred; simp at hred
                  exact ⟨c0, ⟨rfl, hnil⟩, hc0, by omega, hi, ho⟩
        · rintro (hall | ⟨c, ⟨e1, e2⟩, -, hn2, hi, ho⟩)
          · have := hall c0 (Or.inl rfl)
            rw [this] at hc0; exact absurd hc0 (by decide)
          · subst e1 e2
            simp [hn2, hi, ho]
      · simp only [hc0, Bool.false_eq_true, if_false, true_iff]
        left
        rintro x (e | hx)
        · rw [e]; simpa using hc0
        · exact hlater x hx

/-- Witness for C2: the line `cd /tmp` is parsed and accepted. -/
theorem check_cd_ok_iff_witness :
    parse_line env_empty "cd /tmp".toList =
      some ⟨[⟨2, [cell.str "cd".toList, cell.str "/tmp".toList, cell.null], none, none⟩]⟩ ∧
    (check_cd ⟨[⟨2, [cell.str "cd".toList, cell.str "/tmp".toList, cell.null], none, none⟩]⟩
        = CHECK_OK ↔
      ((∀ c ∈ [(⟨2, [cell.str "cd".toList, cell.str "/tmp".toList, cell.null], none, none⟩ :
            command_t)], is_cd c = false) ∨
       (∃ c, [(⟨2, [cell.str "cd".toList, cell.str "/tmp".toList, cell.null], none, none⟩ :
            command_t)] = [c] ∧ is_cd c = true ∧ c.n_args = 2 ∧
          c.in_pathname = none ∧ c.out_pathname = none))) :=
  ⟨by decide, check_cd_ok_iff env_empty "cd /tmp".toList _ (by decide)⟩

/-- C3 (as stated, refuted): with `X` unset, the stage `$X` is parsed to a
command with one argument, the empty string, whereas the stage without the
token is an empty command; and `ls $X` has the two arguments `ls` and the empty
string whereas `ls` has one. -/
theorem unset_variable_counterexample :
    parse_cmd env_empty "$X".toList = some ⟨1, [cell.str [], cell.null], none, none⟩ ∧
    parse_cmd env_empty "".toList = none ∧
    (parse_cmd env_empty "ls $X".toList).map command_t.argv =
      some [cell.str "ls".toList, cell.str []] ∧
    (parse_cmd env_empty "ls".toList).map command_t.argv = some [cell.str "ls".toList] := by
  decide

/-- C3 (amended): a token `$NAME` whose variable is unset contributes exactly
one argument, the empty string. Compared with the loop of `parse_cmd` run on
the stage without the token (`s1`): when that loop fails so does `parse_cmd`
on the stage with the token; otherwise `parse_cmd` succeeds, `n_args` is one
more, the argument list is the one without the token with the empty string
inserted at the token's position, and both redirection paths are the same. -/
theorem parse_cmd_unset_variable (getenv : cstr → Option cstr) (s s1 : cstr)
    (pre post : List cstr) (name : cstr)
    (hs : tokens BLANKS s = pre ++ ('$' :: name) :: post)
    (hs1 : tokens BLANKS s1 = pre ++ post)
    (hunset : getenv name = none) :
    (parse_cmd_scan getenv s1 = none → parse_cmd getenv s = none) ∧
    (∀ c1, parse_cmd_scan getenv s1 = some c1 →
      ∃ c, parse_cmd getenv s = some c ∧ c.n_args = c1.n_args + 1 ∧
        c.argv = c1.argv.take (pre.filter (fun t => !is_redir_token t)).length ++
          cell.str [] :: c1.argv.drop (pre.filter (fun t => !is_redir_token t)).length ∧
        c.in_pathname = c1.in_pathname ∧ c.out_pathname = c1.out_pathname) :=
  parse_cmd_var_token getenv s s1 pre post name [] hs hs1 (by simp [expand, hunset])

/-- Witness for C3: the stage `ls $X >f -l` with `X` unset, against `ls >f -l`. -/
theorem parse_cmd_unset_variable_witness :
    tokens BLANKS "ls $X >f -l".toList =
      ["ls".toList] ++ ('$' :: "X".toList) :: [">f".toList, "-l".toList] ∧
    tokens BLANKS "ls >f -l".toList = ["ls".toList] ++ [">f".toList, "-l".toList] ∧
    env_empty "X".toList = none ∧
    parse_cmd_scan env_empty "ls >f -l".toList =
      some ⟨2, [cell.str "ls".toList, cell.str "-l".toList, cell.null],
        some "f".toList, none⟩ ∧
    ∃ c, parse_cmd env_empty "ls $X >f -l".toList = some c ∧ c.n_args = 3 ∧
      c.argv = [cell.str "ls".toList, cell.str [], cell.str "-l".toList] ∧
      c.in_pathname = none ∧ c.out_pathname = some "f".toList := by
  refine ⟨by decide, by decide, rfl, by decide, ?_⟩
  obtain ⟨c, h1, h2, h3, h4, h5⟩ :=
    (parse_cmd_unset_variable env_empty "ls $X >f -l".toList "ls >f -l".toList
      ["ls".toList] [">f".toList, "-l".toList] "X".toList (by decide) (by decide) rfl).2
      ⟨2, [cell.str "ls".toList, cell.str "-l".toList, cell.null],
        some "f".toList, none⟩ (by decide)
  exact ⟨c, h1, h2, h3, h4, h5⟩

/-- C4 (as stated, refuted): with `X` set to `>out`, the stage `ls $X` is
parsed to a command with the two arguments `ls` and `>out` and no output
redirection, whereas the stage `ls >out` written literally has one argument
and the output path `out`. -/
theorem set_variable_counterexample :
    parse_cmd env_redirect "ls $X".toList =
      some ⟨2, [cell.str "ls".toList, cell.str ">out".toList, cell.null], none, none⟩ ∧
    parse_cmd env_redirect "ls >out".toList =
      some ⟨1, [cell.str "ls".toList, cell.null, cell.uninit], some "out".toList, none⟩ := by
  decide

/-- C4 (amended): in `parse_cmd` a token is classified before a variable is
expanded, and the expansion is never classified. A token `$NAME` whose variable
has the value `v`, whatever `v` begins with, adds `v` whole as one argument at
the token's position and records no redirection: compared with the loop of
`parse_cmd` run on the stage without the token (`s1`), failure is the same,
`n_args` is one more, the argument list has `v` inserted and both redirection
paths are the same. -/
theorem parse_cmd_set_variable (getenv : cstr → Option cstr) (s s1 : cstr)
    (pre post : List cstr) (name v : cstr)
    (hs : tokens BLANKS s = pre ++ ('$' :: name) :: post)
    (hs1 : tokens BLANKS s1 = pre ++ post)
    (hset : getenv name = some v) :
    (parse_cmd_scan getenv s1 = none → parse_cmd getenv s = none) ∧
    (∀ c1, parse_cmd_scan getenv s1 = some c1 →
      ∃ c, parse_cmd getenv s = some c ∧ c.n_args = c1.n_args + 1 ∧
        c.argv = c1.argv.take (pre.filter (fun t => !is_redir_token t)).length ++
          cell.str v :: c1.argv.drop (pre.filter (fun t => !is_redir_token t)).length ∧
        c.in_pathname = c1.in_pathname ∧ c.out_pathname = c1.out_pathname) :=
  parse_cmd_var_token getenv s s1 pre post name v hs hs1 (by simp [expand, hset])

/-- Witness for C4: the stage `ls $X <f` with `X` set to `>out`, against `ls <f`. -/
theorem parse_cmd_set_variable_witness :
    tokens BLANKS "ls $X <f".toList =
      ["ls".toList] ++ ('$' :: "X".toList) :: ["<f".toList] ∧
    tokens BLANKS "ls <f".toList = ["ls".toList] ++ ["<f".toList] ∧
    env_redirect "X".toList = some ">out".toList ∧
    parse_cmd_scan env_redirect "ls <f".toList =
      some ⟨1, [cell.str "ls".toList, cell.null, cell.uninit], none, some "f".toList⟩ ∧
    ∃ c, parse_cmd env_redirect "ls $X <f".toList = some c ∧ c.n_args = 2 ∧
      c.argv = [cell.str "ls".toList, cell.str ">out".toList] ∧
      c.in_pathname = some "f".toList ∧ c.out_pathname = none := by
  refine ⟨by decide, by decide, by decide, by decide, ?_⟩
  obtain ⟨c, h1, h2, h3, h4, h5⟩ :=
    (parse_cmd_set_variable env_redirect "ls $X <f".toList "ls <f".toList
      ["ls".toList] ["<f".toList] "X".toList ">out".toList (by decide) (by decide)
      (by decide)).2
      ⟨1, [cell.str "ls".toList, cell.null, cell.uninit], none, some "f".toList⟩ (by decide)
  exact ⟨c, h1, h2, h3, h4, h5⟩

/-- C5: `parse_cmd` returns the null pointer on every stage string that has two
or more tokens beginning with `<`, or two or more beginning with `>`, or a
token that is exactly `<` or exactly `>`, whatever its other tokens. -/
theorem parse_cmd_rejects_redirections (getenv : cstr → Option cstr) (s : cstr)
    (h : 2 ≤ (tokens BLANKS s).countP (fun t => t.head? == some '<') ∨
         2 ≤ (tokens BLANKS s).countP (fun t => t.head? == some '>') ∨
         ['<'] ∈ tokens BLANKS s ∨ ['>'] ∈ tokens BLANKS s) :
    parse_cmd getenv s = none := by
  cases hp : parse_cmd getenv s with
  | none => rfl
  | some c =>
    exfalso
    have hscan := (parse_cmd_some getenv s c hp).2.2
    have hspec := parse_cmd_scan_spec getenv s
    cases hio : redirs (tokens BLANKS s) (none, none) with
    | none => rw [hio] at hspec; simp only at hspec; rw [hscan] at hspec; simp at hspec
    | some io =>
      obtain ⟨a1, a2, a3, a4⟩ := redirs_some _ _ _ hio
      simp only [Option.isSome_none, Bool.false_eq_true, if_false, Nat.add_zero] at a1 a2
      rcases h with h | h | h | h
      · omega
      · omega
      · exact a3 h
      · exact a4 h

/-- Witness for C5: the stage `cat <a <b` has two input redirections. -/
theorem parse_cmd_rejects_redirections_witness :
    2 ≤ (tokens BLANKS "cat <a <b".toList).countP (fun t => t.head? == some '<') ∧
    parse_cmd env_empty "cat <a <b".toList = none :=
  ⟨by decide, parse_cmd_rejects_redirections env_empty _ (Or.inl (by decide))⟩

/-- C6: `parse_cmd` fails on every stage string all of whose tokens are
redirections (none at all included); `parse_line` fails when `parse_cmd` fails
on one of the stages of the line; and every line `parse_line` returns has
`n_commands >= 1`, each command with `n_args >= 1` and `args[n_args]` the null
pointer. -/
theorem parse_line_invariants (getenv : cstr → Option cstr) :
    (∀ stage : cstr,
      (∀ t ∈ tokens BLANKS stage, t.head? = some '<' ∨ t.head? = some '>') →
        parse_cmd getenv stage = none) ∧
    (∀ line : cstr, (∃ stage ∈ tokens PIPE line, parse_cmd getenv stage = none) →
        parse_line getenv line = none) ∧
    (∀ (line : cstr) (l : line_t), parse_line getenv line = some l →
        1 ≤ l.n_commands ∧
        ∀ c ∈ l.commands, 1 ≤ c.n_args ∧ c.args[c.n_args]? = some cell.null) := by
  refine ⟨?_, ?_, ?_⟩
  · intro stage hall
    cases hp : parse_cmd getenv stage with
    | none => rfl
    | some c =>
      exfalso
      obtain ⟨hn, -, hscan⟩ := parse_cmd_some getenv stage c hp
      have hspec := parse_cmd_scan_spec getenv stage
      have hnil : arg_values getenv (tokens BLANKS stage) = [] := by
        simp only [arg_values, List.map_eq_nil_iff, List.filter_eq_nil_iff]
        intro t ht
        rcases hall t ht with e | e <;> simp [is_redir_token, e]
      cases hio : redirs (tokens BLANKS stage) (none, none) with
      | none => rw [hio] at hspec; simp only at hspec; rw [hscan] at hspec; simp at hspec
      | some io =>
        rw [hio] at hspec
        obtain ⟨c1, b1, b2, -⟩ := hspec
        rw [hscan] at b1
        simp only [Option.some.injEq] at b1
        subst b1
        rw [hnil] at b2
        simp at b2
        omega
  · rintro line ⟨stage, hmem, hnone⟩
    cases hp : parse_line getenv line with
    | none => rfl
    | some l =>
      exfalso
      obtain ⟨-, hst, -⟩ := parse_line_some getenv line l hp
      exact (parse_stages_some getenv _ _ hst).2.1 stage hmem hnone
  · intro line l hl
    obtain ⟨hn, -, hargs⟩ := parse_line_some getenv line l hl
    refine ⟨hn, fun c hc => ?_⟩
    obtain ⟨h1, h2⟩ := hargs c hc
    exact ⟨h1, h2.2 (by omega)⟩

/-- Witness for C6: the line `<in | wc` fails on its first stage, and the
line `ls -l | wc` is returned with two commands that have arguments. -/
theorem parse_line_invariants_witness :
    parse_cmd env_empty "<in ".toList = none ∧
    parse_line env_empty "<in | wc".toList = none ∧
    (parse_line env_empty "ls -l | wc".toList).isSome = true ∧
    ∀ l, parse_line env_empty "ls -l | wc".toList = some l →
      1 ≤ l.n_commands ∧
      ∀ c ∈ l.commands, 1 ≤ c.n_args ∧ c.args[c.n_args]? = some cell.null :=
  ⟨(parse_line_invariants env_empty).1 _ (by decide),
   (parse_line_invariants env_empty).2.1 _ ⟨"<in ".toList, by decide, by decide⟩,
   by decide,
   fun l => (parse_line_invariants env_empty).2.2 _ l⟩

/-! ## Executor lemmas -/

theorem lookup_head (k : Int) (b : file_t) (es : List (Int × file_t)) :
    ((k, b) :: es).lookup k = some b := by
  simp [List.lookup]

theorem lookup_skip (a k : Int) (b : file_t) (es : List (Int × file_t)) (h : a ≠ k) :
    ((k, b) :: es).lookup a = es.lookup a := by
  have : (a == k) = false := by simpa using h
  simp [List.lookup, this]

theorem filter_key_absent (fd : Int) (t : List (Int × file_t)) (h : fd ∉ t.map Prod.fst) :
    t.filter (fun e => e.1 ≠ fd) = t := by
  rw [List.filter_eq_self]
  intro e he
  simp only [ne_eq, decide_eq_true_eq]
  intro heq
  exact h (List.mem_map.mpr ⟨e, he, heq⟩)

theorem filter_key_self (fd : Int) (b : file_t) (t : List (Int × file_t))
    (h : fd ∉ t.map Prod.fst) : ((fd, b) :: t).filter (fun e => e.1 ≠ fd) = t := by
  rw [List.filter_cons]
  simp only [ne_eq, not_true_eq_false, decide_False, Bool.false_eq_true, if_false]
  exact filter_key_absent fd t h

theorem filter_key_other (fd : Int) (e : Int × file_t) (t : List (Int × file_t))
    (h : e.1 ≠ fd) :
    (e :: t).filter (fun e => e.1 ≠ fd) = e :: t.filter (fun e => e.1 ≠ fd) := by
  rw [List.filter_cons]
  simp [h]

theorem map_fst_filter (fd : Int) (t : List (Int × file_t)) :
    (t.filter (fun e => e.1 ≠ fd)).map Prod.fst =
      (t.map Prod.fst).filter (fun x => x ≠ fd) := by
  induction t with
  | nil => rfl
  | cons e t ih =>
    by_cases h : e.1 = fd
    · simp only [List.filter_cons, List.map_cons, h, ne_eq, not_true_eq_false, decide_False,
        Bool.false_eq_true, if_false]
      exact ih
    · simp only [List.filter_cons, List.map_cons, h, ne_eq, not_false_eq_true, decide_True,
        if_true]
      rw [ih]

theorem close_if_needed_logs (fd : Int) (s : os_t) :
    (close_if_needed fd s).calls = s.calls ∧ (close_if_needed fd s).pipes = s.pipes ∧
    (close_if_needed fd s).inherited = s.inherited := by
  unfold close_if_needed
  split
  · exact ⟨rfl, rfl, rfl⟩
  · by_cases h : fd ∈ s.open_fds <;> simp [sys_close, h, os_t.err]

theorem close_if_needed_table (fd : Int) (s : os_t) :
    (close_if_needed fd s).fd_table =
      if fd = NO_REDIR then s.fd_table else s.fd_table.filter (fun e => e.1 ≠ fd) := by
  unfold close_if_needed
  split
  · rfl
  · by_cases h : fd ∈ s.open_fds
    · simp [sys_close, h, os_t.err]
    · simp only [sys_close, h, if_false, os_t.err]
      rw [filter_key_absent fd s.fd_table h]
      simp

theorem run_child_parent (sys : sys_t) (c : command_t) (i o : Int) (s : os_t)
    (hfork : 0 < sys.sys_fork { s with
      calls := s.calls ++ [(c, i, o)]
      inherited := s.inherited ++ [(s.target i, s.target o)] }) :
    run_child sys c i o s = returned () { s with
      calls := s.calls ++ [(c, i, o)]
      inherited := s.inherited ++ [(s.target i, s.target o)] } := by
  unfold run_child
  simp only
  rw [if_neg (by omega), if_neg (by omega)]

/-- The pending read end at the head of a turn of the loop of `execute_line`,
in the last turn: it is what `next_stdin` refers to, and closing it leaves the
table the shell started with. -/
theorem pending_last (t0 tbl : List (Int × file_t)) (next : Int) (pend : Option file_t)
    (hinv : (next = NO_REDIR ∧ pend = none ∧ tbl = t0) ∨
      (∃ f, 0 ≤ next ∧ next ∉ t0.map Prod.fst ∧ pend = some f ∧ tbl = (next, f) :: t0)) :
    (if next = NO_REDIR then none else tbl.lookup next) = pend ∧
    (if next = NO_REDIR then tbl else tbl.filter (fun e => e.1 ≠ next)) = t0 := by
  rcases hinv with ⟨h1, h2, h3⟩ | ⟨f, h1, h2, h3, h4⟩
  · rw [if_pos h1, if_pos h1, h2, h3]; exact ⟨rfl, rfl⟩
  · have hne : next ≠ NO_REDIR := by unfold NO_REDIR; omega
    rw [if_neg hne, if_neg hne, h3, h4, lookup_head, filter_key_self _ _ _ h2]
    exact ⟨rfl, rfl⟩

/-- The same in a turn that creates a pipe with fresh ends `r` and `w`: the
pending read end and the new write end are what the descriptors passed to
`run_child` refer to, and after the two calls of `close_if_needed` the table is
the one the shell started with plus the new read end. -/
theorem pending_pipe (t0 tbl : List (Int × file_t)) (next : Int) (pend : Option file_t)
    (r w : Int) (f1 f2 : file_t)
    (hinv : (next = NO_REDIR ∧ pend = none ∧ tbl = t0) ∨
      (∃ f, 0 ≤ next ∧ next ∉ t0.map Prod.fst ∧ pend = some f ∧ tbl = (next, f) :: t0))
    (hw : 0 ≤ w) (hrw : r ≠ w)
    (hrt : r ∉ tbl.map Prod.fst) (hwt : w ∉ tbl.map Prod.fst) :
    (if next = NO_REDIR then none else ((w, f2) :: (r, f1) :: tbl).lookup next) = pend ∧
    (if w = NO_REDIR then none else ((w, f2) :: (r, f1) :: tbl).lookup w) = some f2 ∧
    (if w = NO_REDIR then
        (if next = NO_REDIR then (w, f2) :: (r, f1) :: tbl
          else ((w, f2) :: (r, f1) :: tbl).filter (fun e => e.1 ≠ next))
      else
        (if next = NO_REDIR then (w, f2) :: (r, f1) :: tbl
          else ((w, f2) :: (r, f1) :: tbl).filter (fun e => e.1 ≠ next)).filter
            (fun e => e.1 ≠ w)) = (r, f1) :: t0 ∧
    r ∉ t0.map Prod.fst := by
  have hwne : w ≠ NO_REDIR := by unfold NO_REDIR; omega
  rw [if_neg hwne, if_neg hwne, lookup_head]
  rcases hinv with ⟨h1, h2, h3⟩ | ⟨f, h1, h2, h3, h4⟩
  · subst h3
    rw [if_pos h1, if_pos h1, h2, filter_key_self _ _ _ (by
      simp only [List.map_cons, List.mem_cons, not_or]; exact ⟨fun e => hrw e.symm, hwt⟩)]
    exact ⟨rfl, rfl, rfl, hrt⟩
  · have hne : next ≠ NO_REDIR := by unfold NO_REDIR; omega
    subst h4
    simp only [List.map_cons, List.mem_cons, not_or] at hrt hwt
    rw [if_neg hne, if_neg hne, h3,
      lookup_skip _ _ _ _ (fun e => hwt.1 e.symm), lookup_skip _ _ _ _ (fun e => hrt.1 e.symm),
      lookup_head,
      filter_key_other _ _ _ (show ((w, f2) : Int × file_t).1 ≠ next from hwt.1),
      filter_key_other _ _ _ (show ((r, f1) : Int × file_t).1 ≠ next from hrt.1),
      filter_key_self _ _ _ h2,
      filter_key_self _ _ _ (by
        simp only [List.map_cons, List.mem_cons, not_or]; exact ⟨fun e => hrw e.symm, hwt.2⟩)]
    exact ⟨rfl, rfl, rfl, hrt.2⟩

theorem execute_line_loop_wiring (sys : sys_t) (l : line_t) (hfresh : sys.fresh)
    (hpipe : ∀ st, sys.sys_pipe st ≠ none)
    (hfcntl : ∀ st fd, sys.sys_fcntl st fd ≠ -1)
    (hfork : ∀ st, 0 < sys.sys_fork st) (t0 : List (Int × file_t)) :
    ∀ (cs : List command_t) (a : Nat) (next_stdin : Int) (pend : Option file_t) (s : os_t),
      cs ≠ [] → a + cs.length = l.n_commands →
      (∀ c ∈ cs, c.in_pathname = none ∧ c.out_pathname = none) →
      ((next_stdin = NO_REDIR ∧ pend = none ∧ s.fd_table = t0) ∨
        (∃ f, 0 ≤ next_stdin ∧ next_stdin ∉ t0.map Prod.fst ∧ pend = some f ∧
          s.fd_table = (next_stdin, f) :: t0)) →
      ∃ (s1 : os_t) (ps : List (Int × Int)),
        execute_line_loop sys l cs a next_stdin s = returned () s1 ∧
        ps.length + 1 = cs.length ∧
        s1.pipes = s.pipes ++ ps.enumFrom a ∧
        s1.calls = s.calls ++
          cs.zip ((next_stdin :: ps.map Prod.fst).zip (ps.map Prod.snd ++ [NO_REDIR])) ∧
        s1.inherited = s.inherited ++
          (pend :: (List.range' s.pipes.length ps.length).map
              (fun k => some (file_t.pipe_read k))).zip
            ((List.range' s.pipes.length ps.length).map
              (fun k => some (file_t.pipe_write k)) ++ [none]) ∧
        s1.fd_table = t0 := by
  intro cs
  induction cs with
  | nil => intro a next_stdin pend s h; exact absurd rfl h
  | cons c later ih =>
    intro a next_stdin pend s _ hlen hredir hinv
    obtain ⟨hin, hout⟩ := hredir c (by simp)
    rw [execute_line_loop]
    simp only [open_stdin, hin, outcome.bind, open_stdout, hout]
    cases later with
    | nil =>
      have hlast : a + 1 = l.n_commands := by simpa using hlen
      obtain ⟨e1, e2⟩ := pending_last t0 s.fd_table next_stdin pend hinv
      simp only [hlast, ne_eq, not_true_eq_false, if_false, outcome.bind]
      rw [run_child_parent sys c _ _ s (hfork _)]
      simp only [outcome.bind, execute_line_loop]
      refine ⟨_, [], rfl, rfl, ?_, ?_, ?_, ?_⟩
      · simp [(close_if_needed_logs _ _).2.1]
      · simp [(close_if_needed_logs _ _).1]
      · have h1 : s.target next_stdin = pend := e1
        have h2 : s.target NO_REDIR = none := by simp [os_t.target]
        simp [(close_if_needed_logs _ _).2.2, h1, h2]
      · rw [close_if_needed_table, close_if_needed_table, if_pos rfl]
        exact e2
    | cons c2 rest =>
      have hnot : a + 1 ≠ l.n_commands := by
        simp only [List.length_cons] at hlen; omega
      simp only [hnot, ne_eq, not_false_eq_true, if_true]
      cases hp : sys.sys_pipe s with
      | none => exact absurd hp (hpipe s)
      | some fds =>
        obtain ⟨f1, f2, f3, f4, f5⟩ := hfresh.2 s fds hp
        obtain ⟨e1, e2, e3, e4⟩ := pending_pipe t0 s.fd_table next_stdin pend fds.1 fds.2
          (file_t.pipe_read s.pipes.length) (file_t.pipe_write s.pipes.length)
          hinv f2 f3 f4 f5
        simp only [hfcntl, if_false, outcome.bind]
        rw [run_child_parent sys c _ _ _ (hfork _)]
        simp only [outcome.bind]
        obtain ⟨s1, ps, h1, h2, h3, h4, h5, h6⟩ := ih (a + 1) fds.1
          (some (file_t.pipe_read s.pipes.length))
          (close_if_needed fds.2 (close_if_needed next_stdin
            { fd_table := (fds.2, file_t.pipe_write s.pipes.length) ::
                (fds.1, file_t.pipe_read s.pipes.length) :: s.fd_table
              calls := s.calls ++ [(c, next_stdin, fds.2)]
              pipes := s.pipes ++ [(a, fds.1, fds.2)]
              chdirs := s.chdirs
              stderr := s.stderr
              inherited := s.inherited ++
                [(if next_stdin = NO_REDIR then none
                    else ((fds.2, file_t.pipe_write s.pipes.length) ::
                      (fds.1, file_t.pipe_read s.pipes.length) :: s.fd_table).lookup next_stdin,
                  if fds.2 = NO_REDIR then none
                    else ((fds.2, file_t.pipe_write s.pipes.length) ::
                      (fds.1, file_t.pipe_read s.pipes.length) :: s.fd_table).lookup fds.2)] }))
          (by simp)
          (by simp only [List.length_cons] at hlen ⊢; omega)
          (fun x hx => hredir x (List.mem_cons_of_mem _ hx))
          (Or.inr ⟨file_t.pipe_read s.pipes.length, f1, e4, rfl, by
            rw [close_if_needed_table, close_if_needed_table]; exact e3⟩)
        refine ⟨s1, fds :: ps, h1, by simp [h2], ?_, ?_, ?_, h6⟩
        · rw [h3]; simp [(close_if_needed_logs _ _).2.1, List.enumFrom]
        · rw [h4]; simp [(close_if_needed_logs _ _).1]
        · rw [h5]
          simp only [(close_if_needed_logs _ _).2.2, (close_if_needed_logs _ _).2.1,
            List.length_append, List.length_cons, List.length_nil, Nat.zero_add,
            os_t.target, os_t.fd_file, e1, e2, List.range'_succ, List.map_cons,
            List.append_assoc, List.cons_append, List.nil_append, List.zip_cons_cons]

/-- C7: on a line with at least one stage, none of which is `cd` or has a
redirection, and when `pipe` hands out fresh descriptors and `pipe`, `fcntl`
and `fork` succeed in the shell, `execute_line` returns after calling
`run_child` once per stage, in stage order. With `ps` the pipes created, as
pairs (read end, write end), pipe `i` is created in iteration `i` and there is
one pipe per stage but the last; the descriptors passed as `c_stdin` are
`NO_REDIR` followed by the read ends, those passed as `c_stdout` are the write
ends followed by `NO_REDIR`. At the time of each call these descriptors are
open and refer to those very pipes (`inherited`): stage 0 is given no input
file and the last stage no output file, stage `i` is given the write end and
stage `i+1` the read end of the pipe created in iteration `i`, whatever
descriptor numbers were handed out again in between; a single stage is given
`NO_REDIR` twice. On return the descriptor table of the shell is the one at
entry. -/
theorem execute_line_wiring (sys : sys_t) (l : line_t) (s : os_t)
    (hstages : 1 ≤ l.n_commands)
    (hcd : ∀ c ∈ l.commands, is_cd c = false)
    (hredir : ∀ c ∈ l.commands, c.in_pathname = none ∧ c.out_pathname = none)
    (hfresh : sys.fresh)
    (hpipe : ∀ st, sys.sys_pipe st ≠ none)
    (hfcntl : ∀ st fd, sys.sys_fcntl st fd ≠ -1)
    (hfork : ∀ st, 0 < sys.sys_fork st) :
    ∃ (s1 : os_t) (ps : List (Int × Int)), execute_line sys l s = returned () s1 ∧
      ps.length + 1 = l.n_commands ∧
      s1.pipes = s.pipes ++ ps.enum ∧
      s1.calls = s.calls ++
        l.commands.zip ((NO_REDIR :: ps.map Prod.fst).zip (ps.map Prod.snd ++ [NO_REDIR])) ∧
      s1.inherited = s.inherited ++
        (none :: (List.range' s.pipes.length ps.length).map
            (fun k => some (file_t.pipe_read k))).zip
          ((List.range' s.pipes.length ps.length).map
            (fun k => some (file_t.pipe_write k)) ++ [none]) ∧
      s1.fd_table = s.fd_table := by
  obtain ⟨cs⟩ := l
  cases cs with
  | nil => simp [line_t.n_commands] at hstages
  | cons c0 later =>
    have h0 : is_cd c0 = false := hcd c0 (by simp)
    obtain ⟨s1, ps, h1, h2, h3, h4, h5, h6⟩ :=
      execute_line_loop_wiring sys ⟨c0 :: later⟩ hfresh hpipe hfcntl hfork s.fd_table
        (c0 :: later) 0 NO_REDIR none s
        (by simp) (by simp [line_t.n_commands]) hredir (Or.inl ⟨rfl, rfl, rfl⟩)
    refine ⟨{ s1 with stderr := s1.stderr ++ wait_for_children (sys.sys_wait s1) }, ps,
      ?_, h2, h3, h4, h5, h6⟩
    simp only [execute_line, List.getElem?_cons_zero, h0, Bool.false_eq_true, if_false, h1,
      outcome.bind]

theorem close_if_needed_fds (fd : Int) (s : os_t) :
    (close_if_needed fd s).open_fds =
      if fd = NO_REDIR then s.open_fds else s.open_fds.filter (fun x => x ≠ fd) := by
  unfold os_t.open_fds
  rw [close_if_needed_table]
  split
  · rfl
  · exact map_fst_filter fd s.fd_table

theorem filter_ne_self (fd : Int) (t : List Int) (h : fd ∉ t) :
    (fd :: t).filter (fun x => x ≠ fd) = t := by
  rw [List.filter_cons]
  simp only [ne_eq, not_true_eq_false, decide_False, Bool.false_eq_true, if_false]
  rw [List.filter_eq_self]
  intro x hx
  simp only [decide_eq_true_eq]
  intro e; rw [e] at hx; exact h hx

theorem filter_ne_other (fd y : Int) (t : List Int) (h : y ≠ fd) :
    (y :: t).filter (fun x => x ≠ fd) = y :: t.filter (fun x => x ≠ fd) := by
  rw [List.filter_cons]
  simp [h]

theorem filter_ne_absent (fd : Int) (t : List Int) (h : fd ∉ t) :
    t.filter (fun x => x ≠ fd) = t := by
  rw [List.filter_eq_self]
  intro x hx
  simp only [ne_eq, decide_eq_true_eq]
  intro e; rw [e] at hx; exact h hx

theorem open_stdin_returned (sys : sys_t) (hfresh : sys.fresh) (c : command_t) (a : Nat)
    (next_stdin cur : Int) (s s1 : os_t)
    (h : open_stdin sys c a next_stdin s = returned cur s1) :
    (cur = next_stdin ∧ s1 = s) ∨
    (a = 0 ∧ 0 ≤ cur ∧ cur ∉ s.open_fds ∧ s1.open_fds = cur :: s.open_fds) := by
  unfold open_stdin at h
  cases hin : c.in_pathname with
  | none =>
    rw [hin] at h
    simp only [returned.injEq] at h
    exact Or.inl ⟨h.1.symm, h.2.symm⟩
  | some path =>
    rw [hin] at h
    simp only at h
    split at h
    · exact absurd h (by simp)
    · rename_i ha
      split at h
      · exact absurd h (by simp [fatal_errno])
      · rename_i hfd
        simp only [returned.injEq] at h
        obtain ⟨e1, e2⟩ := h
        rcases hfresh.1 s path open_flags.O_RDONLY with hf | ⟨hf1, hf2⟩
        · exact absurd hf hfd
        · right
          subst e1 e2
          exact ⟨by omega, hf1, hf2, rfl⟩

theorem open_stdout_returned (sys : sys_t) (hfresh : sys.fresh) (l : line_t) (c : command_t)
    (a : Nat) (next_stdin : Int) (fds : Int × Int) (s s1 : os_t)
    (h : open_stdout sys l c a next_stdin s = returned fds s1) :
    (a + 1 = l.n_commands ∧ fds.1 = NO_REDIR ∧ s1 = s) ∨
    (a + 1 = l.n_commands ∧ 0 ≤ fds.1 ∧ fds.1 ∉ s.open_fds ∧
      s1.open_fds = fds.1 :: s.open_fds) ∨
    (a + 1 ≠ l.n_commands ∧ 0 ≤ fds.1 ∧ 0 ≤ fds.2 ∧ fds.2 ≠ fds.1 ∧
      fds.1 ∉ s.open_fds ∧ fds.2 ∉ s.open_fds ∧
      s1.open_fds = fds.1 :: fds.2 :: s.open_fds) := by
  unfold open_stdout at h
  cases hout : c.out_pathname with
  | some path =>
    rw [hout] at h
    simp only at h
    split at h
    · exact absurd h (by simp)
    · rename_i ha
      split at h
      · exact absurd h (by simp [fatal_errno])
      · rename_i hfd
        simp only [returned.injEq] at h
        obtain ⟨e1, e2⟩ := h
        rcases hfresh.1 s path open_flags.O_RDWR_O_CREAT with hf | ⟨hf1, hf2⟩
        · exact absurd hf hfd
        · right; left
          subst e1 e2
          exact ⟨by omega, hf1, hf2, rfl⟩
  | none =>
    rw [hout] at h
    simp only at h
    split at h
    · rename_i ha
      cases hp : sys.sys_pipe s with
      | none => rw [hp] at h; exact absurd h (by simp [fatal_errno])
      | some p =>
        rw [hp] at h
        simp only at h
        split at h
        · exact absurd h (by simp [fatal_errno])
        · split at h
          · exact absurd h (by simp [fatal_errno])
          · simp only [returned.injEq] at h
            obtain ⟨e1, e2⟩ := h
            obtain ⟨f1, f2, f3, f4, f5⟩ := hfresh.2 s p hp
            right; right
            subst e1 e2
            exact ⟨ha, f2, f1, f3, f5, f4, rfl⟩
    · rename_i ha
      simp only [returned.injEq] at h
      obtain ⟨e1, e2⟩ := h
      left
      subst e1 e2
      exact ⟨by omega, rfl, rfl⟩

theorem run_child_returned (sys : sys_t) (hparent : ∀ st, sys.sys_fork st ≠ 0)
    (c : command_t) (i o : Int) (s s1 : os_t)
    (h : run_child sys c i o s = returned () s1) : s1.open_fds = s.open_fds := by
  unfold run_child at h
  simp only at h
  split at h
  · exact absurd h (by simp [fatal_errno])
  · rw [if_neg (hparent _)] at h
    simp only [returned.injEq, true_and] at h
    rw [← h]
    rfl

theorem bind_returned {α β : Type} (o : outcome α) (k : α → os_t → outcome β) (v : β)
    (s1 : os_t) (h : o.bind k = returned v s1) :
    ∃ w s, o = returned w s ∧ k w s = returned v s1 := by
  cases o with
  | returned w s => exact ⟨w, s, rfl, h⟩
  | exited s => simp [outcome.bind] at h
  | aborted s => simp [outcome.bind] at h
  | replaced s => simp [outcome.bind] at h
  | undefined => simp [outcome.bind] at h

/-- The open descriptors after the two `close_if_needed` calls of one turn of
the loop of `execute_line`: those at the head of the loop without the pending
read end, plus the read end of the pipe this turn created, if any. -/
theorem closes_spec (s0 : List Int) (cur : Int) (fds : Int × Int) (sa sb sc : os_t)
    (a n : Nat)
    (hS : (cur = NO_REDIR ∧ sa.open_fds = s0) ∨
          (0 ≤ cur ∧ cur ∉ s0 ∧ sa.open_fds = cur :: s0))
    (hT : (a + 1 = n ∧ fds.1 = NO_REDIR ∧ sb = sa) ∨
          (a + 1 = n ∧ 0 ≤ fds.1 ∧ fds.1 ∉ sa.open_fds ∧
            sb.open_fds = fds.1 :: sa.open_fds) ∨
          (a + 1 ≠ n ∧ 0 ≤ fds.1 ∧ 0 ≤ fds.2 ∧ fds.2 ≠ fds.1 ∧
            fds.1 ∉ sa.open_fds ∧ fds.2 ∉ sa.open_fds ∧
            sb.open_fds = fds.1 :: fds.2 :: sa.open_fds))
    (hsc : sc.open_fds = sb.open_fds) :
    (a + 1 = n ∧ (close_if_needed fds.1 (close_if_needed cur sc)).open_fds = s0) ∨
    (a + 1 ≠ n ∧ 0 ≤ fds.2 ∧ fds.2 ∉ s0 ∧
      (close_if_needed fds.1 (close_if_needed cur sc)).open_fds = fds.2 :: s0) := by
  rw [close_if_needed_fds, close_if_needed_fds, hsc]
  rcases hS with ⟨hc, ha⟩ | ⟨hc0, hcs, ha⟩
  · rw [if_pos hc]
    rcases hT with ⟨h1, h2, h3⟩ | ⟨h1, h2, h3, h4⟩ | ⟨h1, h2, h3, h4, h5, h6, h7⟩
    · left; rw [if_pos h2, h3, ha]; exact ⟨h1, rfl⟩
    · left
      have hne : fds.1 ≠ NO_REDIR := by unfold NO_REDIR; omega
      rw [if_neg hne, h4, ha, filter_ne_self _ _ (ha ▸ h3)]
      exact ⟨h1, rfl⟩
    · right
      have hne : fds.1 ≠ NO_REDIR := by unfold NO_REDIR; omega
      rw [ha] at h5 h6
      rw [if_neg hne, h7, ha, filter_ne_self _ _ (by
        simp only [List.mem_cons, not_or]; exact ⟨fun e => h4 e.symm, h5⟩)]
      exact ⟨h1, h3, h6, rfl⟩
  · have hcne : cur ≠ NO_REDIR := by unfold NO_REDIR; omega
    rw [if_neg hcne]
    rcases hT with ⟨h1, h2, h3⟩ | ⟨h1, h2, h3, h4⟩ | ⟨h1, h2, h3, h4, h5, h6, h7⟩
    · left
      rw [if_pos h2, h3, ha, filter_ne_self _ _ hcs]
      exact ⟨h1, rfl⟩
    · left
      have hne : fds.1 ≠ NO_REDIR := by unfold NO_REDIR; omega
      rw [ha] at h3
      simp only [List.mem_cons, not_or] at h3
      rw [if_neg hne, h4, ha, filter_ne_other _ _ _ h3.1, filter_ne_self _ _ hcs,
        filter_ne_self _ _ h3.2]
      exact ⟨h1, rfl⟩
    · right
      have hne : fds.1 ≠ NO_REDIR := by unfold NO_REDIR; omega
      rw [ha] at h5 h6
      simp only [List.mem_cons, not_or] at h5 h6
      rw [if_neg hne, h7, ha, filter_ne_other _ _ _ h5.1, filter_ne_other _ _ _ h6.1,
        filter_ne_self _ _ hcs, filter_ne_self _ _ (by
          simp only [List.mem_cons, not_or]; exact ⟨fun e => h4 e.symm, h5.2⟩)]
      exact ⟨h1, h3, h6.2, rfl⟩

theorem execute_line_loop_fds (sys : sys_t) (hfresh : sys.fresh)
    (hparent : ∀ st, sys.sys_fork st ≠ 0) (l : line_t) (s0 : List Int) :
    ∀ (cs : List command_t) (a : Nat) (next_stdin : Int) (s s1 : os_t),
      a + cs.length = l.n_commands →
      ((cs = [] ∧ s.open_fds = s0) ∨
       (cs ≠ [] ∧ a = 0 ∧ next_stdin = NO_REDIR ∧ s.open_fds = s0) ∨
       (cs ≠ [] ∧ 0 < a ∧ 0 ≤ next_stdin ∧ next_stdin ∉ s0 ∧
          s.open_fds = next_stdin :: s0)) →
      execute_line_loop sys l cs a next_stdin s = returned () s1 →
      s1.open_fds = s0 := by
  intro cs
  induction cs with
  | nil =>
    intro a next_stdin s s1 _ hinv h
    simp only [execute_line_loop, returned.injEq, true_and] at h
    rcases hinv with ⟨-, h0⟩ | ⟨hne, -⟩ | ⟨hne, -⟩
    · rw [← h]; exact h0
    · exact absurd rfl hne
    · exact absurd rfl hne
  | cons c later ih =>
    intro a next_stdin s s1 hlen hinv h
    rw [execute_line_loop] at h
    obtain ⟨cur, sa, hA, h⟩ := bind_returned _ _ _ _ h
    obtain ⟨fds, sb, hB, h⟩ := bind_returned _ _ _ _ h
    obtain ⟨_, sc, hC, h⟩ := bind_returned _ _ _ _ h
    have hA1 := open_stdin_returned sys hfresh c a next_stdin cur s sa hA
    have hB1 := open_stdout_returned sys hfresh l c a next_stdin fds sa sb hB
    have hC1 := run_child_returned sys hparent c cur fds.1 sb sc hC
    have hS : (cur = NO_REDIR ∧ sa.open_fds = s0) ∨
        (0 ≤ cur ∧ cur ∉ s0 ∧ sa.open_fds = cur :: s0) := by
      rcases hinv with ⟨hnil, -⟩ | ⟨-, ha0, hn, ho⟩ | ⟨-, hpos, hn0, hns, ho⟩
      · exact absurd hnil (by simp)
      · rcases hA1 with ⟨e1, e2⟩ | ⟨-, e2, e3, e4⟩
        · left; rw [e1, e2]; exact ⟨hn, ho⟩
        · right; rw [ho] at e3 e4; exact ⟨e2, e3, e4⟩
      · rcases hA1 with ⟨e1, e2⟩ | ⟨e0, -⟩
        · right; rw [e1, e2]; exact ⟨hn0, hns, ho⟩
        · omega
    have hlen1 : a + 1 + later.length = l.n_commands := by
      simp only [List.length_cons] at hlen; omega
    rcases closes_spec s0 cur fds sa sb sc a l.n_commands hS hB1 hC1 with
      ⟨hl, ho⟩ | ⟨hl, h1, h2, ho⟩
    · have hnil : later = [] := by
        cases later with
        | nil => rfl
        | cons x y => simp only [List.length_cons] at hlen1; omega
      exact ih (a + 1) fds.2 _ s1 hlen1 (Or.inl ⟨hnil, ho⟩) h
    · have hne : later ≠ [] := by
        intro e; rw [e] at hlen1; simp at hlen1; omega
      exact ih (a + 1) fds.2 _ s1 hlen1
        (Or.inr (Or.inr ⟨hne, by omega, h1, h2, ho⟩)) h

/-- C8: when `open` and `pipe` hand out fresh descriptors and the followed
process is the shell (no `fork` returns 0), then for every line that passes
`check_redirections` and `check_cd`, if `execute_line` returns, the open
descriptors of the shell are those at entry: every redirection file, pipe read
end and pipe write end opened during the call has been closed. An `assert`
that fails ends the process, so `execute_line` does not return then. -/
theorem execute_line_closes_descriptors (sys : sys_t) (hfresh : sys.fresh)
    (hparent : ∀ st, sys.sys_fork st ≠ 0) (l : line_t) (s s1 : os_t)
    (_hredir : check_redirections l = CHECK_OK) (_hcd : check_cd l = CHECK_OK)
    (hret : execute_line sys l s = returned () s1) :
    s1.open_fds = s.open_fds := by
  unfold execute_line at hret
  cases h0 : l.commands[0]? with
  | none => rw [h0] at hret; exact absurd hret (by simp)
  | some c0 =>
    rw [h0] at hret
    simp only at hret
    split at hret
    · split at hret
      · simp only [returned.injEq, true_and] at hret
        rw [← hret]
        unfold change_current_directory os_t.err
        split <;> rfl
      · exact absurd hret (by simp)
    · obtain ⟨_, s2, hloop, hfin⟩ := bind_returned _ _ _ _ hret
      simp only [returned.injEq, true_and] at hfin
      rw [← hfin]
      have hcs : l.commands ≠ [] := by
        intro e; rw [e] at h0; simp at h0
      exact execute_line_loop_fds sys hfresh hparent l s.open_fds l.commands 0 NO_REDIR s s2
        (by simp [line_t.n_commands]) (Or.inr (Or.inl ⟨hcs, rfl, rfl, rfl⟩)) hloop


theorem above_fresh (fds : List Int) :
    0 ≤ above fds ∧ above fds ∉ fds ∧ above fds + 1 ∉ fds := by
  have hmax : ∀ l : List Int, 2 ≤ l.foldr max 2 ∧ ∀ x ∈ l, x ≤ l.foldr max 2 := by
    intro l
    induction l with
    | nil => simp
    | cons y t ih =>
      simp only [List.foldr_cons, List.mem_cons]
      refine ⟨le_trans ih.1 (le_max_right _ _), ?_⟩
      rintro x (e | hx)
      · rw [e]; exact le_max_left _ _
      · exact le_trans (ih.2 x hx) (le_max_right _ _)
  obtain ⟨h2, hle⟩ := hmax fds
  unfold above
  refine ⟨by omega, ?_, ?_⟩
  · intro hmem; have := hle _ hmem; omega
  · intro hmem; have := hle _ hmem; omega

theorem sys_parent_fresh (waits : List Nat) : (sys_parent waits).fresh := by
  constructor
  · intro s path flags
    right
    exact ⟨(above_fresh s.open_fds).1, (above_fresh s.open_fds).2.1⟩
  · intro s fds h
    simp only [sys_parent, Option.some.injEq] at h
    obtain ⟨h0, h1, h2⟩ := above_fresh s.open_fds
    subst h
    exact ⟨h0, by omega, by omega, h1, h2⟩

/-- Witness for C7: the line `ls | sort | wc`, from the initial state of the
shell: two pipes; `ls` is given descriptor 4, the write end of pipe 0, and
`sort` descriptor 3, its read end; `sort` is given descriptor 5, the write end
of pipe 1, and `wc` descriptor 4, which was closed and handed out again and is
the read end of pipe 1 by then. -/
theorem execute_line_wiring_witness :
    parse_line env_empty "ls | sort | wc".toList = some line_ls_sort_wc ∧
    1 ≤ line_ls_sort_wc.n_commands ∧
    (∀ c ∈ line_ls_sort_wc.commands, is_cd c = false) ∧
    (∀ c ∈ line_ls_sort_wc.commands, c.in_pathname = none ∧ c.out_pathname = none) ∧
    (sys_parent []).fresh ∧
    execute_line (sys_parent []) line_ls_sort_wc os_init =
      returned ()
        ⟨[(0, file_t.tty), (1, file_t.tty), (2, file_t.tty)],
          line_ls_sort_wc.commands.zip [(-1, 4), (3, 5), (4, -1)],
          [(0, 3, 4), (1, 4, 5)], [], [],
          [(none, some (file_t.pipe_write 0)),
           (some (file_t.pipe_read 0), some (file_t.pipe_write 1)),
           (some (file_t.pipe_read 1), none)]⟩ ∧
    ∃ (s1 : os_t) (ps : List (Int × Int)),
      execute_line (sys_parent []) line_ls_sort_wc os_init = returned () s1 ∧
      ps.length + 1 = line_ls_sort_wc.n_commands ∧
      s1.pipes = os_init.pipes ++ ps.enum ∧
      s1.calls = os_init.calls ++
        line_ls_sort_wc.commands.zip
          ((NO_REDIR :: ps.map Prod.fst).zip (ps.map Prod.snd ++ [NO_REDIR])) ∧
      s1.inherited = os_init.inherited ++
        (none :: (List.range' os_init.pipes.length ps.length).map
            (fun k => some (file_t.pipe_read k))).zip
          ((List.range' os_init.pipes.length ps.length).map
            (fun k => some (file_t.pipe_write k)) ++ [none]) ∧
      s1.fd_table = os_init.fd_table :=
  ⟨by decide, by decide, by decide, by decide, sys_parent_fresh [], by decide,
   execute_line_wiring (sys_parent []) line_ls_sort_wc os_init (by decide) (by decide)
     (by decide) (sys_parent_fresh []) (fun st => by simp [sys_parent])
     (fun st fd => by simp [sys_parent])
     (fun st => by simp only [sys_parent]; omega)⟩

/-- Witness for C8: the line `sort <in | uniq | wc >out` passes both checks,
`execute_line` returns on it, and the shell has its three standard streams
open afterwards, as before. -/
theorem execute_line_closes_descriptors_witness :
    parse_line env_empty "sort <in | uniq | wc >out".toList = some line_sort_uniq_wc ∧
    (sys_parent []).fresh ∧
    (∀ st, (sys_parent []).sys_fork st ≠ 0) ∧
    check_redirections line_sort_uniq_wc = CHECK_OK ∧
    check_cd line_sort_uniq_wc = CHECK_OK ∧
    execute_line (sys_parent []) line_sort_uniq_wc os_init =
      returned () ⟨[(0, file_t.tty), (1, file_t.tty), (2, file_t.tty)],
        line_sort_uniq_wc.commands.zip [(3, 5), (4, 6), (5, 6)],
        [(0, 4, 5), (1, 5, 6)], [], [],
        [(some (file_t.file "in".toList open_flags.O_RDONLY), some (file_t.pipe_write 0)),
         (some (file_t.pipe_read 0), some (file_t.pipe_write 1)),
         (some (file_t.pipe_read 1),
          some (file_t.file "out".toList open_flags.O_RDWR_O_CREAT))]⟩ ∧
    (⟨[(0, file_t.tty), (1, file_t.tty), (2, file_t.tty)],
        line_sort_uniq_wc.commands.zip [(3, 5), (4, 6), (5, 6)],
        [(0, 4, 5), (1, 5, 6)], [], [],
        [(some (file_t.file "in".toList open_flags.O_RDONLY), some (file_t.pipe_write 0)),
         (some (file_t.pipe_read 0), some (file_t.pipe_write 1)),
         (some (file_t.pipe_read 1),
          some (file_t.file "out".toList open_flags.O_RDWR_O_CREAT))]⟩ : os_t).open_fds =
      os_init.open_fds :=
  ⟨by decide, sys_parent_fresh [], fun st => by simp only [sys_parent]; omega,
   by decide, by decide, by decide,
   execute_line_closes_descriptors (sys_parent []) (sys_parent_fresh [])
     (fun st => by simp only [sys_parent]; omega) line_sort_uniq_wc os_init _
     (by decide) (by decide) (by decide)⟩

/-- C9 (code defect): in the child (`fork` returns 0), when `execvp` fails,
`run_child` prints its diagnostic and returns to its caller instead of
terminating the child. On the line `nosuchprog | cat` the child of the first
stage therefore goes on in the loop of `execute_line`: it calls `run_child`
for the stage `cat` too, and `execute_line` returns in it. -/
theorem run_child_returns_after_failed_exec :
    run_child sys_child_exec_fails ⟨1, [cell.str "nosuchprog".toList, cell.null], none, none⟩
        NO_REDIR NO_REDIR os_init =
      returned () ⟨[(0, file_t.tty), (1, file_t.tty), (2, file_t.tty)],
        [(⟨1, [cell.str "nosuchprog".toList, cell.null], none, none⟩, -1, -1)], [], [],
        [diag.msg "Error run_child: Command not found\n"], [(none, none)]⟩ ∧
    parse_line env_empty "nosuchprog | cat".toList = some line_nosuchprog_cat ∧
    ((execute_line sys_child_exec_fails line_nosuchprog_cat os_init).bind
        fun _ s1 => returned (s1.calls.map Prod.snd, s1.stderr) s1) =
      returned ([(-1, 4), (3, -1)],
          [diag.msg "Error run_child: Command not found\n",
           diag.msg "close in close_if_needed"])
        ⟨[(1, file_t.pipe_write 0), (0, file_t.tty), (2, file_t.tty)],
          line_nosuchprog_cat.commands.zip [(-1, 4), (3, -1)], [(0, 3, 4)], [],
          [diag.msg "Error run_child: Command not found\n",
           diag.msg "close in close_if_needed"],
          [(none, some (file_t.pipe_write 0)), (some (file_t.pipe_read 0), none)]⟩ := by
  decide

/-- The function `wait_for_children` never prints more than one report. -/
theorem wait_for_children_length_le (waits : List Nat) :
    (wait_for_children waits).length ≤ 1 := by
  unfold wait_for_children
  simp only
  generalize wait_loop waits 0 = st
  by_cases h : WTERMSIG st = 0
  · simp [WIFEXITED, WIFSIGNALED, h]
    split <;> simp
  · simp [WIFEXITED, WIFSIGNALED, h]
    split <;> simp

/-- C10 (code defect): `wait_for_children` looks at the last status only.
When two children exit with status 1 and 2 it prints one report (for 2), not
two; when a child exits with status 1, or is killed by signal 9, and the last
one exits with status 0, it prints none. -/
theorem wait_for_children_reports_last_only :
    wait_for_children [W_EXITCODE 1 0, W_EXITCODE 2 0] = [diag.exit_status 2] ∧
    [W_EXITCODE 1 0, W_EXITCODE 2 0].countP abnormal = 2 ∧
    wait_for_children [W_EXITCODE 1 0, W_EXITCODE 0 0] = [] ∧
    [W_EXITCODE 1 0, W_EXITCODE 0 0].countP abnormal = 1 ∧
    wait_for_children [W_EXITCODE 0 9, W_EXITCODE 0 0] = [] ∧
    [W_EXITCODE 0 9, W_EXITCODE 0 0].countP abnormal = 1 := by
  decide

/-- The assertion of the `cd` branch of `execute_line` holds on every line
that `parse_line` returns and `check_cd` accepts: when the first argument of
the first stage is `cd`, the line has one stage and that stage two arguments. -/
theorem execute_line_cd_assertion (getenv : cstr → Option cstr) (line : cstr) (l : line_t)
    (c0 : command_t) (h : parse_line getenv line = some l)
    (hcd : check_cd l = CHECK_OK) (h0 : l.commands[0]? = some c0)
    (hiscd : is_cd c0 = true) : l.n_commands = 1 ∧ c0.n_args = 2 := by
  obtain ⟨hn, -, hargs⟩ := parse_line_some getenv line l h
  have hmem : c0 ∈ l.commands := by
    obtain ⟨hlt, he⟩ := List.getElem?_eq_some_iff.mp h0
    rw [← he]; exact List.getElem_mem hlt
  have h1 : 1 ≤ c0.n_args := (hargs c0 hmem).1
  unfold check_cd at hcd
  split at hcd
  · exact absurd hcd (by decide)
  · rw [h0] at hcd
    simp only [hiscd, if_true] at hcd
    split at hcd
    · exact absurd hcd (by decide)
    · split at hcd
      · exact absurd hcd (by decide)
      · split at hcd
        · exact absurd hcd (by decide)
        · split at hcd
          · exact absurd hcd (by decide)
          · exact ⟨by omega, by omega⟩

/-- C11 (code defect, the one of C1): the line `cat | sort <in` is returned by
`parse_line` and accepted by `check_redirections` and `check_cd` although its
stage 1 has an input path, and `execute_line` stops in `assert(a == 0)` after
it has spawned `cat`; the line `ls >out | cat` is accepted although its stage 0
has an output path, and `execute_line` stops in `assert(a == n_commands-1)`
before it spawns anything. -/
theorem execute_line_assertions_fail :
    parse_line env_empty "cat | sort <in".toList = some line_cat_sort_in ∧
    check_redirections line_cat_sort_in = CHECK_OK ∧
    check_cd line_cat_sort_in = CHECK_OK ∧
    has_in line_cat_sort_in 1 = true ∧
    execute_line (sys_parent []) line_cat_sort_in os_init =
      aborted ⟨[(3, file_t.pipe_read 0), (0, file_t.tty), (1, file_t.tty), (2, file_t.tty)],
        [(⟨1, [cell.str ['c', 'a', 't'], cell.null], none, none⟩, -1, 4)],
        [(0, 3, 4)], [], [], [(none, some (file_t.pipe_write 0))]⟩ ∧
    parse_line env_empty "ls >out | cat".toList = some line_ls_out_cat ∧
    check_redirections line_ls_out_cat = CHECK_OK ∧
    check_cd line_ls_out_cat = CHECK_OK ∧
    has_out line_ls_out_cat 0 = true ∧
    line_ls_out_cat.n_commands - 1 = 1 ∧
    execute_line (sys_parent []) line_ls_out_cat os_init = aborted os_init := by
  decide

end Microbash
